import Mathlib

/-!
Verification of the topology-reconstruction core of `IsogeomGenerator/vol.py`
(class `IsoVolume`, PyMOAB stage): connected-component surface separation
(`__separate`), tolerance-based vertex matching (`__get_matches`), triangle
selection (`__get_surf_triangles`), surface imprint/merge (`__compare_surfs`,
`__imprint_merge`) and hierarchy assembly (`__make_family`).

The embedding is shallow: MOAB entity handles become naturals, double-precision
coordinates become exact integers on a fixed decimal grid (all the matcher uses of them — subtraction, absolute value, order comparison — are the same in any linearly ordered commutative ring, so no claim depends on the grid), MOAB meshsets and sparse tags become association
lists inside an explicit state record, and the Python loops (including the
source's index-based iteration over lists that are mutated while being
iterated) become fuel-indexed recursions with explicit indices.
-/

namespace IsoGeom

/-- A MOAB entity handle (vertex, triangle, meshset, ...). -/
abbrev EH := Nat

/-- A 3D coordinate; each axis is an exact integer standing for the double in
the code (think of it as the double times a fixed power of ten). -/
structure Pt where
  x : ℤ
  y : ℤ
  z : ℤ
deriving DecidableEq, Repr

/-- Triangle connectivity: the three vertex handles of a triangle. -/
abbrev TriConn := EH × EH × EH

/-- The global triangle table of the MOAB core: each entry is a triangle entity
handle paired with its (mutable) connectivity. -/
abbrev Tris := List (EH × TriConn)

/-- The three vertex handles referenced by a connectivity triple
(`mb.get_connectivity(tri)`). -/
def triVerts (c : TriConn) : List EH := [c.1, c.2.1, c.2.2]

/-- `mb.get_adjacencies(verts, 2, op_type=1)` on the global store: the triangles
having at least one vertex in the given list. -/
def triAdj (tris : Tris) (good : List EH) : Tris :=
  tris.filter (fun t => (triVerts t.2).any (fun v => decide (v ∈ good)))

/-- `IsoVolume.__get_surf_triangles` (vol.py 542-570): from a list of vertex
handles, the triangles all three of whose vertices lie in the list.  Mirrors the
source's two-step computation: all triangles adjacent to the good vertices,
minus the ones adjacent to any vertex of those triangles that is not good. -/
def getSurfTriangles (tris : Tris) (verts_good : List EH) : List EH :=
  let tris_all := triAdj tris verts_good
  let verts_all := tris_all.flatMap (fun t => triVerts t.2)
  let verts_bad := verts_all.filter (fun v => decide (v ∉ verts_good))
  if verts_bad = [] then
    tris_all.map (fun t => t.1)
  else
    let tris_bad := triAdj tris verts_bad
    (tris_all.filter (fun t => decide (t ∉ tris_bad))).map (fun t => t.1)

/-- Characterization: a triangle entry survives `getSurfTriangles` exactly when
all three of its vertices are good. -/
theorem getSurfTriangles_iff (tris : Tris) (good : List EH) (te : EH) :
    te ∈ getSurfTriangles tris good ↔
      ∃ t ∈ tris, t.1 = te ∧ ∀ v ∈ triVerts t.2, v ∈ good := by
  simp only [getSurfTriangles]
  constructor
  · intro h
    split at h
    next hempty =>
      rw [List.mem_map] at h
      obtain ⟨t, ht, rfl⟩ := h
      have htall := ht
      rw [triAdj, List.mem_filter] at htall
      refine ⟨t, htall.1, rfl, ?_⟩
      intro v hv
      by_contra hbad
      have : v ∈ (triAdj tris good).flatMap (fun t => triVerts t.2) := by
        exact List.mem_flatMap.mpr ⟨t, ht, hv⟩
      have : v ∈ ((triAdj tris good).flatMap (fun t => triVerts t.2)).filter
          (fun v => decide (v ∉ good)) := by
        rw [List.mem_filter]
        exact ⟨this, by simpa using hbad⟩
      rw [hempty] at this
      exact absurd this (List.not_mem_nil v)
    next hne =>
      rw [List.mem_map] at h
      obtain ⟨t, ht, rfl⟩ := h
      rw [List.mem_filter] at ht
      obtain ⟨htall, hnotbad⟩ := ht
      have htall' := htall
      rw [triAdj, List.mem_filter] at htall'
      refine ⟨t, htall'.1, rfl, ?_⟩
      intro v hv
      by_contra hbad
      have hvbad : v ∈ ((triAdj tris good).flatMap (fun t => triVerts t.2)).filter
          (fun v => decide (v ∉ good)) := by
        rw [List.mem_filter]
        exact ⟨List.mem_flatMap.mpr ⟨t, htall, hv⟩, by simpa using hbad⟩
      have : t ∈ triAdj tris (((triAdj tris good).flatMap (fun t => triVerts t.2)).filter
          (fun v => decide (v ∉ good))) := by
        rw [triAdj, List.mem_filter]
        refine ⟨htall'.1, ?_⟩
        simp only [List.any_eq_true, decide_eq_true_eq]
        exact ⟨v, hv, hvbad⟩
      simp only [decide_eq_true_eq] at hnotbad
      exact hnotbad this
  · rintro ⟨t, ht, rfl, hall⟩
    have hmemall : t ∈ triAdj tris good := by
      rw [triAdj, List.mem_filter]
      refine ⟨ht, ?_⟩
      simp only [List.any_eq_true, decide_eq_true_eq]
      exact ⟨t.2.1, by simp [triVerts], hall t.2.1 (by simp [triVerts])⟩
    split
    next hempty => exact List.mem_map.mpr ⟨t, hmemall, rfl⟩
    next hne =>
      rw [List.mem_map]
      refine ⟨t, ?_, rfl⟩
      rw [List.mem_filter]
      refine ⟨hmemall, ?_⟩
      simp only [decide_eq_true_eq]
      intro hcontra
      rw [triAdj, List.mem_filter] at hcontra
      obtain ⟨-, htouch⟩ := hcontra
      simp only [List.any_eq_true, decide_eq_true_eq] at htouch
      obtain ⟨v, hv, hvbad⟩ := htouch
      rw [List.mem_filter] at hvbad
      simp only [decide_eq_true_eq] at hvbad
      exact hvbad.2 (hall v hv)

/-! ### Vertex matcher: `IsoVolume.__get_matches` (vol.py 466-540) -/

/-- One axis of `np.isclose(coord, bcoords, rtol=0, atol=merge_tol)`:
`|a - b| <= atol` (with `rtol = 0` the numpy test is exactly this). -/
def axClose (tol a b : ℤ) : Bool := decide (|a - b| ≤ tol)

/-- All three per-axis tolerance tests at once (the conjunction whose indexwise
intersection the source computes through `set(ix) & set(iy) & set(iz)`). -/
def ptClose (tol : ℤ) (a b : Pt) : Bool :=
  axClose tol a.x b.x && axClose tol a.y b.y && axClose tol a.z b.z

/-- `np.where(zip(*tf)[k])[0]` for one axis `f`: the indices `j` into `bcoords`
whose axis-`f` value is within `tol` of `a`, in increasing index order. -/
def idxPassFrom (tol : ℤ) (f : Pt → ℤ) (a : Pt) : List Pt → Nat → List Nat
  | [], _ => []
  | b :: rest, j =>
    if axClose tol (f a) (f b) then j :: idxPassFrom tol f a rest (j + 1)
    else idxPassFrom tol f a rest (j + 1)

def idxPass (tol : ℤ) (f : Pt → ℤ) (a : Pt) (bcoords : List Pt) : List Nat :=
  idxPassFrom tol f a bcoords 0

def pt0 : Pt := ⟨0, 0, 0⟩

/-- `list(set(ix) & set(iy) & set(iz))` of the source.  CPython materializes the
intersection as an unordered hash set; the model lists it in increasing index
order, which agrees with CPython for small index values but is not guaranteed
by the language in general (the basis of the C8 analysis). -/
def indexSet (tol : ℤ) (coord : Pt) (bcoords : List Pt) : List Nat :=
  ((idxPass tol (fun p => p.x) coord bcoords).filter
      (fun j => decide (j ∈ idxPass tol (fun p => p.y) coord bcoords))).filter
    (fun j => decide (j ∈ idxPass tol (fun p => p.z) coord bcoords))

/-- The five results of `__get_matches`: parallel lists of matched A-side entity
handles and coordinates, matched B-side handles and coordinates, and the
B-handle-to-A-handle dictionary used for connectivity stitching (modelled as an
association list where the most recent binding is first, mirroring dict
overwrite). -/
structure MatchOut where
  sAeh : List EH
  sAco : List Pt
  sBeh : List EH
  sBco : List Pt
  mdict : List (EH × EH)
deriving Repr, DecidableEq

/-- Loop body of `__get_matches` over `vertsA.items()`: exact coordinate match
first (`coord in bcoords`), otherwise the per-axis `np.isclose` intersection;
the first index of the (modelled) intersection is taken.  When `vertsB` is
empty the source's numpy broadcast would raise; the model instead finds no
match, so theorems about the approximate path carry a `vertsB ≠ []`
hypothesis. -/
def getMatchesGo (tol : ℤ) (vertsB : List (Pt × EH)) :
    List (EH × Pt) → MatchOut → MatchOut
  | [], acc => acc
  | (ehA, coord) :: rest, acc =>
    let bcoords := vertsB.map (fun p => p.1)
    let acc2 :=
      if coord ∈ bcoords then
        let ehB := (List.lookup coord vertsB).getD 0
        { sAeh := acc.sAeh ++ [ehA], sAco := acc.sAco ++ [coord],
          sBeh := acc.sBeh ++ [ehB], sBco := acc.sBco ++ [coord],
          mdict := (ehB, ehA) :: acc.mdict }
      else
        match indexSet tol coord bcoords with
        | [] => acc
        | index :: _ =>
          let bcoord := bcoords.getD index pt0
          let ehB := (List.lookup bcoord vertsB).getD 0
          { sAeh := acc.sAeh ++ [ehA], sAco := acc.sAco ++ [coord],
            sBeh := acc.sBeh ++ [ehB], sBco := acc.sBco ++ [bcoord],
            mdict := (ehB, ehA) :: acc.mdict }
    getMatchesGo tol vertsB rest acc2

/-- `IsoVolume.__get_matches` (vol.py 466-540). -/
def getMatches (tol : ℤ) (vertsA : List (EH × Pt)) (vertsB : List (Pt × EH)) :
    MatchOut :=
  getMatchesGo tol vertsB vertsA ⟨[], [], [], [], []⟩

theorem mem_idxPassFrom (tol : ℤ) (f : Pt → ℤ) (a : Pt) (l : List Pt) (k j : Nat) :
    j ∈ idxPassFrom tol f a l k ↔
      k ≤ j ∧ j - k < l.length ∧ axClose tol (f a) (f (l.getD (j - k) pt0)) = true := by
  induction l generalizing k with
  | nil => simp [idxPassFrom]
  | cons b rest ih =>
    simp only [idxPassFrom]
    split
    next hb =>
      simp only [List.mem_cons, ih (k + 1)]
      constructor
      · rintro (rfl | ⟨h1, h2, h3⟩)
        · simpa using hb
        · have hjk : j - k = (j - (k + 1)) + 1 := by omega
          refine ⟨by omega, by simp; omega, ?_⟩
          rw [hjk]
          simpa using h3
      · rintro ⟨h1, h2, h3⟩
        rcases Nat.eq_or_lt_of_le h1 with rfl | hlt
        · exact Or.inl rfl
        · right
          have hjk : j - k = (j - (k + 1)) + 1 := by omega
          rw [hjk] at h3
          simp only [List.getD_cons_succ] at h3
          exact ⟨by omega, by simp at h2 ⊢; omega, h3⟩
    next hb =>
      rw [ih (k + 1)]
      constructor
      · rintro ⟨h1, h2, h3⟩
        have hjk : j - k = (j - (k + 1)) + 1 := by omega
        refine ⟨by omega, by simp; omega, ?_⟩
        rw [hjk]
        simpa using h3
      · rintro ⟨h1, h2, h3⟩
        rcases Nat.eq_or_lt_of_le h1 with rfl | hlt
        · simp only [Nat.sub_self, List.getD_cons_zero] at h3
          exact absurd h3 hb
        · have hjk : j - k = (j - (k + 1)) + 1 := by omega
          rw [hjk] at h3
          simp only [List.getD_cons_succ] at h3
          exact ⟨by omega, by simp at h2 ⊢; omega, h3⟩

theorem mem_idxPass (tol : ℤ) (f : Pt → ℤ) (a : Pt) (l : List Pt) (j : Nat) :
    j ∈ idxPass tol f a l ↔
      j < l.length ∧ axClose tol (f a) (f (l.getD j pt0)) = true := by
  rw [idxPass, mem_idxPassFrom]
  simp

theorem mem_indexSet (tol : ℤ) (coord : Pt) (bcoords : List Pt) (j : Nat) :
    j ∈ indexSet tol coord bcoords ↔
      j < bcoords.length ∧ ptClose tol coord (bcoords.getD j pt0) = true := by
  simp only [indexSet, List.mem_filter, mem_idxPass, decide_eq_true_eq, ptClose,
    Bool.and_eq_true]
  tauto

/-- The spec's per-pair tolerance condition
`max(|ax-bx|,|ay-by|,|az-bz|) ≤ merge_tol`, written per axis. -/
def tolOK (tol : ℤ) (a b : Pt) : Prop :=
  |a.x - b.x| ≤ tol ∧ |a.y - b.y| ≤ tol ∧ |a.z - b.z| ≤ tol

theorem ptClose_iff_tolOK (tol : ℤ) (a b : Pt) :
    ptClose tol a b = true ↔ tolOK tol a b := by
  simp [ptClose, axClose, tolOK, Bool.and_eq_true, and_assoc]

theorem zip_concat_of_length_eq {α β : Type} (as : List α) (bs : List β) (x : α)
    (y : β) (h : as.length = bs.length) :
    (as ++ [x]).zip (bs ++ [y]) = as.zip bs ++ [(x, y)] := by
  induction as generalizing bs with
  | nil =>
    cases bs with
    | nil => simp
    | cons b bs => simp at h
  | cons a as ih =>
    cases bs with
    | nil => simp at h
    | cons b bs =>
      simp only [List.length_cons, Nat.add_right_cancel_iff] at h
      simp [List.zip_cons_cons, ih bs h]

theorem getMatchesGo_sound (tol : ℤ) (vertsB : List (Pt × EH)) (l : List (EH × Pt))
    (acc : MatchOut) (htol : 0 ≤ tol)
    (hlen : acc.sAco.length = acc.sBco.length)
    (hacc : ∀ p ∈ acc.sAco.zip acc.sBco, tolOK tol p.1 p.2) :
    ∀ p ∈ ((getMatchesGo tol vertsB l acc).sAco.zip
        (getMatchesGo tol vertsB l acc).sBco), tolOK tol p.1 p.2 := by
  induction l generalizing acc with
  | nil => simpa [getMatchesGo] using hacc
  | cons hd rest ih =>
    obtain ⟨ehA, coord⟩ := hd
    simp only [getMatchesGo]
    split
    next hexact =>
      refine ih _ (by simp [hlen]) ?_
      intro p hp
      rw [zip_concat_of_length_eq _ _ _ _ hlen] at hp
      rcases List.mem_append.mp hp with h | h
      · exact hacc p h
      · simp only [List.mem_singleton] at h
        subst h
        refine ⟨?_, ?_, ?_⟩ <;> simp [htol]
    next hexact =>
      split
      next heq => exact ih _ hlen hacc
      next index restIdx heq =>
        refine ih _ (by simp [hlen]) ?_
        intro p hp
        rw [zip_concat_of_length_eq _ _ _ _ hlen] at hp
        rcases List.mem_append.mp hp with h | h
        · exact hacc p h
        · simp only [List.mem_singleton] at h
          subst h
          have hidx : index ∈ indexSet tol coord (vertsB.map (fun p => p.1)) := by
            rw [heq]; exact List.mem_cons_self _ _
          rw [mem_indexSet] at hidx
          exact (ptClose_iff_tolOK tol _ _).mp hidx.2

theorem getMatchesGo_sAeh_mono (tol : ℤ) (vertsB : List (Pt × EH))
    (l : List (EH × Pt)) (acc : MatchOut) :
    ∀ x ∈ acc.sAeh, x ∈ (getMatchesGo tol vertsB l acc).sAeh := by
  induction l generalizing acc with
  | nil => simp [getMatchesGo]
  | cons hd rest ih =>
    obtain ⟨ehA, coord⟩ := hd
    intro x hx
    simp only [getMatchesGo]
    split
    next hexact => exact ih _ x (by simp [hx])
    next hexact =>
      split
      next heq => exact ih _ x hx
      next index restIdx heq => exact ih _ x (by simp [hx])

theorem getMatchesGo_complete (tol : ℤ) (vertsB : List (Pt × EH))
    (l : List (EH × Pt)) (acc : MatchOut) (ehA : EH) (coord : Pt)
    (hmem : (ehA, coord) ∈ l)
    (hout : ehA ∉ (getMatchesGo tol vertsB l acc).sAeh) :
    ∀ b ∈ vertsB, ¬ tolOK tol coord b.1 := by
  induction l generalizing acc with
  | nil => exact absurd hmem (List.not_mem_nil _)
  | cons hd rest ih =>
    obtain ⟨e, c⟩ := hd
    rcases List.mem_cons.mp hmem with heq | hrest
    · rw [Prod.mk.injEq] at heq
      obtain ⟨rfl, rfl⟩ := heq
      simp only [getMatchesGo] at hout
      split at hout
      next hexact =>
        exact absurd (getMatchesGo_sAeh_mono tol vertsB rest _ ehA (by simp)) hout
      next hexact =>
        split at hout
        next heqIdx =>
          intro b hb htolOK
          have hbc : b.1 ∈ vertsB.map (fun p => p.1) := List.mem_map.mpr ⟨b, hb, rfl⟩
          obtain ⟨j, hj, hgetj⟩ := List.mem_iff_getElem.mp hbc
          have : j ∈ indexSet tol coord (vertsB.map (fun p => p.1)) := by
            rw [mem_indexSet]
            refine ⟨hj, ?_⟩
            rw [List.getD_eq_getElem _ _ hj, hgetj, ptClose_iff_tolOK]
            exact htolOK
          rw [heqIdx] at this
          exact absurd this (List.not_mem_nil j)
        next index restIdx heqIdx =>
          exact absurd (getMatchesGo_sAeh_mono tol vertsB rest _ ehA (by simp)) hout
    · simp only [getMatchesGo] at hout
      split at hout
      next hexact => exact ih _ hrest hout
      next hexact =>
        split at hout
        next heqIdx => exact ih _ hrest hout
        next index restIdx heqIdx => exact ih _ hrest hout

/-- **C4.** For every pair of vertex collections A (id to coordinate) and
B (coordinate to id) and every tolerance `merge_tol > 0`: every pair matched by
`__get_matches` satisfies the per-axis tolerance bound
`max(|ax-bx|,|ay-by|,|az-bz|) ≤ merge_tol` (soundness), and for every vertex of
A left unmatched no vertex of B passes the per-axis tolerance test on all three
axes (completeness).  The `vertsB ≠ []` hypothesis marks the one input on which
the source would instead raise (numpy broadcast of an empty array). -/
theorem C4_matcher_tolerance (tol : ℤ) (vertsA : List (EH × Pt))
    (vertsB : List (Pt × EH)) (htol : 0 < tol) (hBne : vertsB ≠ []) :
    (∀ p ∈ ((getMatches tol vertsA vertsB).sAco.zip
        (getMatches tol vertsA vertsB).sBco), tolOK tol p.1 p.2) ∧
    (∀ a ∈ vertsA, a.1 ∉ (getMatches tol vertsA vertsB).sAeh →
        ∀ b ∈ vertsB, ¬ tolOK tol a.2 b.1) := by
  constructor
  · exact getMatchesGo_sound tol vertsB vertsA _ (le_of_lt htol) rfl (by simp)
  · intro a ha hout
    exact getMatchesGo_complete tol vertsB vertsA _ a.1 a.2 (by simpa using ha) hout

/-- Witness for C4 at a concrete input: A has an exactly-matching vertex and a
far-away vertex, B a single vertex; the far vertex is unmatched and indeed no
B vertex is within tolerance of it. -/
theorem C4_matcher_tolerance_witness :
    ¬ tolOK 1 (⟨5, 5, 5⟩ : Pt) (⟨0, 0, 0⟩ : Pt) :=
  (C4_matcher_tolerance 1 [(1, ⟨0, 0, 0⟩), (2, ⟨5, 5, 5⟩)] [(⟨0, 0, 0⟩, 11)]
      (by norm_num) (by simp)).2 (2, ⟨5, 5, 5⟩) (by simp) (by decide)
    (⟨0, 0, 0⟩, 11) (by simp)

/-! ### Component separator: `IsoVolume.__separate` (vol.py 330-397) -/

/-- `mb.get_adjacencies(mb.get_adjacencies(verts_check, 2, op_type=1), 0,
op_type=1)`: all vertices of all triangles having at least one vertex in the
frontier set `check`. -/
def nbrsF (tris : Tris) (check : Finset EH) : Finset EH :=
  ((tris.filter (fun t => (triVerts t.2).any (fun v => decide (v ∈ check)))).flatMap
    (fun t => triVerts t.2)).toFinset

theorem mem_nbrsF (tris : Tris) (check : Finset EH) (v : EH) :
    v ∈ nbrsF tris check ↔
      ∃ t ∈ tris, (∃ w ∈ triVerts t.2, w ∈ check) ∧ v ∈ triVerts t.2 := by
  simp only [nbrsF, List.mem_toFinset, List.mem_flatMap, List.mem_filter,
    List.any_eq_true, decide_eq_true_eq]
  constructor
  · rintro ⟨t, ⟨ht, w, hw, hwc⟩, hv⟩
    exact ⟨t, ht, ⟨w, hw, hwc⟩, hv⟩
  · rintro ⟨t, ht, ⟨w, hw, hwc⟩, hv⟩
    exact ⟨t, ⟨ht, w, hw, hwc⟩, hv⟩

theorem nbrsF_mono (tris : Tris) {A B : Finset EH} (h : A ⊆ B) :
    nbrsF tris A ⊆ nbrsF tris B := by
  intro v hv
  rw [mem_nbrsF] at hv ⊢
  obtain ⟨t, ht, ⟨w, hw, hwc⟩, hv⟩ := hv
  exact ⟨t, ht, ⟨w, hw, h hwc⟩, hv⟩

theorem nbrsF_union (tris : Tris) (A B : Finset EH) :
    nbrsF tris (A ∪ B) = nbrsF tris A ∪ nbrsF tris B := by
  ext v
  simp only [Finset.mem_union, mem_nbrsF]
  constructor
  · rintro ⟨t, ht, ⟨w, hw, hwc⟩, hv⟩
    rcases hwc with h | h
    · exact Or.inl ⟨t, ht, ⟨w, hw, h⟩, hv⟩
    · exact Or.inr ⟨t, ht, ⟨w, hw, h⟩, hv⟩
  · rintro (⟨t, ht, ⟨w, hw, hwc⟩, hv⟩ | ⟨t, ht, ⟨w, hw, hwc⟩, hv⟩)
    · exact ⟨t, ht, ⟨w, hw, Or.inl hwc⟩, hv⟩
    · exact ⟨t, ht, ⟨w, hw, Or.inr hwc⟩, hv⟩

/-- The inner `while True` of `__separate` (vol.py 362-381): repeatedly extend
the accumulated vertex set `verts` by all vertices connected through a triangle
to the current frontier `verts_check`, stopping when no growth happened (the
`len(list(vtmp_all)) == len(verts)` break).  The fuel argument stands for the
unbounded `while`; every lemma shows the supplied fuel reaches the break. -/
def floodLoop (tris : Tris) : Nat → Finset EH → Finset EH → Finset EH
  | 0, verts, _ => verts
  | fuel + 1, verts, check =>
    let vtmp_all := verts ∪ nbrsF tris check
    if vtmp_all.card = verts.card then verts
    else floodLoop tris fuel vtmp_all (vtmp_all \ verts)

theorem floodLoop_spec (tris : Tris) (P : Finset EH)
    (hPc : nbrsF tris P ⊆ P) :
    ∀ fuel verts check, check ⊆ verts → verts ⊆ P →
      nbrsF tris (verts \ check) ⊆ verts →
      P.card + 1 ≤ fuel + verts.card →
      verts ⊆ floodLoop tris fuel verts check ∧
      floodLoop tris fuel verts check ⊆ P ∧
      nbrsF tris (floodLoop tris fuel verts check) ⊆
        floodLoop tris fuel verts check := by
  intro fuel
  induction fuel with
  | zero =>
    intro verts check hcv hvP hsat hfuel
    have := Finset.card_le_card hvP
    omega
  | succ fuel ih =>
    intro verts check hcv hvP hsat hfuel
    simp only [floodLoop]
    split
    next hcard =>
      have heq : verts ∪ nbrsF tris check = verts := by
        refine (Finset.eq_of_subset_of_card_le Finset.subset_union_left
          (le_of_eq hcard)).symm
      have hclosed : nbrsF tris verts ⊆ verts := by
        have hdecomp : (verts \ check) ∪ check = verts :=
          Finset.sdiff_union_of_subset hcv
        calc nbrsF tris verts = nbrsF tris ((verts \ check) ∪ check) := by
              rw [hdecomp]
          _ = nbrsF tris (verts \ check) ∪ nbrsF tris check := nbrsF_union ..
          _ ⊆ verts := by
              intro v hv
              rcases Finset.mem_union.mp hv with h | h
              · exact hsat h
              · have : v ∈ verts ∪ nbrsF tris check := Finset.mem_union_right _ h
                rw [heq] at this
                exact this
      exact ⟨Finset.Subset.refl _, hvP, hclosed⟩
    next hcard =>
      have hsub : verts ⊆ verts ∪ nbrsF tris check := Finset.subset_union_left
      have hstrict : verts.card < (verts ∪ nbrsF tris check).card := by
        rcases Nat.lt_or_ge verts.card (verts ∪ nbrsF tris check).card with h | h
        · exact h
        · exact absurd (le_antisymm (Finset.card_le_card hsub) h).symm hcard
      have hP2 : verts ∪ nbrsF tris check ⊆ P := by
        intro v hv
        rcases Finset.mem_union.mp hv with h | h
        · exact hvP h
        · exact hPc (nbrsF_mono tris (hcv.trans hvP) h)
      have hsat2 : nbrsF tris ((verts ∪ nbrsF tris check) \
          ((verts ∪ nbrsF tris check) \ verts)) ⊆ verts ∪ nbrsF tris check := by
        have hxx : (verts ∪ nbrsF tris check) \ ((verts ∪ nbrsF tris check) \ verts)
            = verts := by
          rw [Finset.sdiff_sdiff_self_left]
          exact Finset.inter_eq_right.mpr hsub
        rw [hxx]
        have hdecomp : (verts \ check) ∪ check = verts :=
          Finset.sdiff_union_of_subset hcv
        calc nbrsF tris verts = nbrsF tris ((verts \ check) ∪ check) := by
              rw [hdecomp]
          _ = nbrsF tris (verts \ check) ∪ nbrsF tris check := nbrsF_union ..
          _ ⊆ verts ∪ nbrsF tris check := by
              intro v hv
              rcases Finset.mem_union.mp hv with h | h
              · exact Finset.mem_union_left _ (hsat h)
              · exact Finset.mem_union_right _ h
      obtain ⟨h1, h2, h3⟩ := ih (verts ∪ nbrsF tris check)
        ((verts ∪ nbrsF tris check) \ verts) Finset.sdiff_subset hP2 hsat2
        (by omega)
      exact ⟨hsub.trans h1, h2, h3⟩

/-- One separated patch: the triangle entity handles put into the new meshset
and its vertex set. -/
abbrev Patch := List EH × Finset EH

/-- The outer `while len(all_verts) > 0` of `__separate` (vol.py 355-397):
take the first remaining vertex as seed, flood to the full connected set,
collect the triangles entirely inside it (`__get_surf_triangles`), store the
patch, and drop the patch's vertices from the remaining pool. -/
def separateLoop (tris : Tris) : Nat → List EH → List Patch
  | 0, _ => []
  | fuel + 1, pool =>
    match pool with
    | [] => []
    | seed :: _ =>
      let comp := floodLoop tris (pool.length + 1) {seed} {seed}
      let ctris := getSurfTriangles tris (comp.sort (fun a b => a ≤ b))
      (ctris, comp) ::
        separateLoop tris fuel (pool.filter (fun v => decide (v ∉ comp)))

/-- `IsoVolume.__separate` for one band, reduced to its data content: the list
of disjoint patches extracted from the triangle table and vertex pool.  The
source raises nothing on an empty pool: the `while` guard simply fails and the
patch list stays empty (the basis of C7). -/
def separate (tris : Tris) (pool : List EH) : List Patch :=
  separateLoop tris (pool.length + 1) pool

theorem assoc_key_injective {α β : Type} [DecidableEq α] {l : List (α × β)}
    (h : (l.map (fun p => p.1)).Nodup) {a : α} {b c : β}
    (h1 : (a, b) ∈ l) (h2 : (a, c) ∈ l) : b = c := by
  induction l with
  | nil => exact absurd h1 (List.not_mem_nil _)
  | cons hd tl ih =>
    simp only [List.map_cons, List.nodup_cons] at h
    rcases List.mem_cons.mp h1 with rfl | h1tl
    · rcases List.mem_cons.mp h2 with heq | h2tl
      · exact (congrArg Prod.snd heq).symm
      · exact absurd (List.mem_map.mpr ⟨(a, c), h2tl, rfl⟩) h.1
    · rcases List.mem_cons.mp h2 with rfl | h2tl
      · exact absurd (List.mem_map.mpr ⟨(a, b), h1tl, rfl⟩) h.1
      · exact ih h.2 h1tl h2tl

/-- All vertices of a triangle are in a closed set as soon as one is. -/
theorem triVerts_subset_of_closed (tris : Tris) (C : Finset EH)
    (hC : nbrsF tris C ⊆ C) {t : EH × TriConn} (ht : t ∈ tris)
    {w : EH} (hw : w ∈ triVerts t.2) (hwC : w ∈ C) :
    ∀ v ∈ triVerts t.2, v ∈ C := by
  intro v hv
  exact hC ((mem_nbrsF tris C v).mpr ⟨t, ht, ⟨w, hw, hwC⟩, hv⟩)

theorem separateLoop_succ_nil (tris : Tris) (fuel : Nat) :
    separateLoop tris (fuel + 1) [] = [] := rfl

theorem separateLoop_succ_cons (tris : Tris) (fuel : Nat) (seed : EH)
    (rest : List EH) :
    separateLoop tris (fuel + 1) (seed :: rest) =
      (getSurfTriangles tris ((floodLoop tris ((seed :: rest).length + 1)
          {seed} {seed}).sort (fun a b => a ≤ b)),
        floodLoop tris ((seed :: rest).length + 1) {seed} {seed}) ::
        separateLoop tris fuel ((seed :: rest).filter (fun v =>
          decide (v ∉ floodLoop tris ((seed :: rest).length + 1) {seed} {seed}))) :=
  rfl

theorem separateLoop_spec (tris : Tris) (hK : (tris.map (fun t => t.1)).Nodup) :
    ∀ fuel pool, pool.length < fuel →
      nbrsF tris pool.toFinset ⊆ pool.toFinset →
      (∀ v, (separateLoop tris fuel pool).countP
          (fun p => decide (v ∈ p.2)) = if v ∈ pool then 1 else 0) ∧
      (∀ p ∈ separateLoop tris fuel pool, ∀ v ∈ p.2, v ∈ pool) ∧
      (∀ t ∈ tris, (separateLoop tris fuel pool).countP
          (fun p => decide (t.1 ∈ p.1)) = if t.2.1 ∈ pool then 1 else 0) ∧
      (∀ p ∈ separateLoop tris fuel pool, ∀ te ∈ p.1, ∃ t ∈ tris, t.1 = te) := by
  intro fuel
  induction fuel with
  | zero => intro pool hlen; omega
  | succ fuel ih =>
    intro pool hlen hclosed
    cases pool with
    | nil =>
      rw [separateLoop_succ_nil]
      exact ⟨fun v => by simp, fun p hp => absurd hp (List.not_mem_nil p),
        fun t ht => by simp, fun p hp => absurd hp (List.not_mem_nil p)⟩
    | cons seed rest =>
      have hseed : seed ∈ (seed :: rest).toFinset := by simp
      obtain ⟨hgrow, hcompP, hcompC⟩ := floodLoop_spec tris (seed :: rest).toFinset
        hclosed ((seed :: rest).length + 1) {seed} {seed}
        (Finset.Subset.refl _) (Finset.singleton_subset_iff.mpr hseed)
        (by simp [nbrsF]) (by
          have := List.toFinset_card_le (seed :: rest)
          simp only [Finset.card_singleton]
          omega)
      rw [separateLoop_succ_cons]
      set comp := floodLoop tris ((seed :: rest).length + 1) {seed} {seed}
        with hcompdef
      have hseedcomp : seed ∈ comp := hgrow (Finset.mem_singleton_self seed)
      set newPool := (seed :: rest).filter (fun v => decide (v ∉ comp)) with hnewdef
      have hnewlen : newPool.length < fuel := by
        have hlt : newPool.length < (seed :: rest).length := by
          rw [hnewdef]
          refine List.length_filter_lt_length_iff_exists.mpr ?_
          exact ⟨seed, by simp, by simp [hseedcomp]⟩
        simp only [List.length_cons] at hlt hlen ⊢
        omega
      have hnewFinset : newPool.toFinset = (seed :: rest).toFinset \ comp := by
        rw [hnewdef, List.toFinset_filter, Finset.sdiff_eq_filter]
        simp
      have hnewclosed : nbrsF tris newPool.toFinset ⊆ newPool.toFinset := by
        rw [hnewFinset]
        intro v hv
        have hvPool : v ∈ (seed :: rest).toFinset :=
          hclosed (nbrsF_mono tris Finset.sdiff_subset hv)
        rw [Finset.mem_sdiff]
        refine ⟨hvPool, ?_⟩
        intro hvcomp
        rw [mem_nbrsF] at hv
        obtain ⟨t, ht, ⟨w, hw, hwc⟩, hvt⟩ := hv
        have hwcomp : w ∈ comp :=
          triVerts_subset_of_closed tris comp hcompC ht hvt hvcomp w hw
        rw [Finset.mem_sdiff] at hwc
        exact hwc.2 hwcomp
      obtain ⟨ihv, ihsub, ihtri, ihsoup⟩ := ih newPool hnewlen hnewclosed
      have hmemNew : ∀ v, v ∈ newPool ↔ v ∈ (seed :: rest) ∧ v ∉ comp := by
        intro v
        rw [hnewdef, List.mem_filter]
        simp
      have hcompPool : ∀ v ∈ comp, v ∈ (seed :: rest) := by
        intro v hv
        have := hcompP hv
        simpa using this
      refine ⟨?_, ?_, ?_, ?_⟩
      · intro v
        rw [List.countP_cons]
        by_cases hvc : v ∈ comp
        · rw [ihv v, if_neg (by rw [hmemNew]; tauto), if_pos (hcompPool v hvc)]
          simp [hvc]
        · rw [ihv v]
          by_cases hvp : v ∈ (seed :: rest)
          · rw [if_pos (by rw [hmemNew]; exact ⟨hvp, hvc⟩), if_pos hvp]
            simp [hvc]
          · rw [if_neg (by rw [hmemNew]; tauto), if_neg hvp]
            simp [hvc]
      · intro p hp v hv
        rcases List.mem_cons.mp hp with rfl | hp
        · exact hcompPool v hv
        · have := ihsub p hp v hv
          rw [hmemNew] at this
          exact this.1
      · intro t ht
        rw [List.countP_cons]
        by_cases hvc : t.2.1 ∈ comp
        · have hall : ∀ v ∈ triVerts t.2, v ∈ comp :=
            triVerts_subset_of_closed tris comp hcompC ht (by simp [triVerts]) hvc
          have hmem : t.1 ∈ getSurfTriangles tris (comp.sort (fun a b => a ≤ b)) := by
            rw [getSurfTriangles_iff]
            refine ⟨t, ht, rfl, fun v hv => ?_⟩
            rw [Finset.mem_sort]
            exact hall v hv
          rw [ihtri t ht, if_neg (by rw [hmemNew]; tauto),
            if_pos (hcompPool _ hvc)]
          simp [hmem]
        · have hnmem : t.1 ∉ getSurfTriangles tris (comp.sort (fun a b => a ≤ b)) := by
            intro hmem
            rw [getSurfTriangles_iff] at hmem
            obtain ⟨t2, ht2, hkey, hall⟩ := hmem
            have hconn : t2.2 = t.2 := by
              have h1 : (t.1, t2.2) ∈ tris := by
                have := ht2
                rwa [show t2 = (t2.1, t2.2) from rfl, hkey] at this
              have h2 : (t.1, t.2) ∈ tris := by
                rwa [show t = (t.1, t.2) from rfl] at ht
              exact assoc_key_injective hK h1 h2
            have hin : t.2.1 ∈ comp := by
              have hm := hall t2.2.1 (by simp [triVerts])
              rw [hconn] at hm
              rw [Finset.mem_sort] at hm
              exact hm
            exact hvc hin
          rw [ihtri t ht]
          by_cases hvp : t.2.1 ∈ (seed :: rest)
          · rw [if_pos (by rw [hmemNew]; exact ⟨hvp, hvc⟩), if_pos hvp]
            simp [hnmem]
          · rw [if_neg (by rw [hmemNew]; tauto), if_neg hvp]
            simp [hnmem]
      · intro p hp te hte
        rcases List.mem_cons.mp hp with rfl | hp
        · have := hte
          rw [getSurfTriangles_iff] at this
          obtain ⟨t, ht, hkey, -⟩ := this
          exact ⟨t, ht, hkey⟩
        · exact ihsoup p hp te hte

/-- **C6.** The Component Separator's patches partition the band's triangle
soup exactly: every vertex of the pool lies in exactly one patch's vertex set,
every triangle of the soup lies in exactly one patch's triangle set, and
patches contain nothing outside the soup. -/
theorem C6_separate_partition (tris : Tris) (pool : List EH)
    (hK : (tris.map (fun t => t.1)).Nodup)
    (hT : ∀ t ∈ tris, ∀ v ∈ triVerts t.2, v ∈ pool) :
    (∀ v ∈ pool, (separate tris pool).countP (fun p => decide (v ∈ p.2)) = 1) ∧
    (∀ p ∈ separate tris pool, ∀ v ∈ p.2, v ∈ pool) ∧
    (∀ t ∈ tris, (separate tris pool).countP (fun p => decide (t.1 ∈ p.1)) = 1) ∧
    (∀ p ∈ separate tris pool, ∀ te ∈ p.1, ∃ t ∈ tris, t.1 = te) := by
  have hclosed : nbrsF tris pool.toFinset ⊆ pool.toFinset := by
    intro v hv
    rw [mem_nbrsF] at hv
    obtain ⟨t, ht, -, hvt⟩ := hv
    exact List.mem_toFinset.mpr (hT t ht v hvt)
  obtain ⟨h1, h2, h3, h4⟩ := separateLoop_spec tris hK (pool.length + 1) pool
    (by omega) hclosed
  refine ⟨fun v hv => ?_, h2, fun t ht => ?_, h4⟩
  · rw [separate, h1 v, if_pos hv]
  · rw [separate, h3 t ht, if_pos (hT t ht t.2.1 (by simp [triVerts]))]

/-- Witness for C6 at a concrete soup: two disjoint triangles separate into
two patches, and e.g. vertex 1 lies in exactly one of them. -/
theorem C6_separate_partition_witness :
    (separate [(101, (1, 2, 3)), (102, (4, 5, 6))] [1, 2, 3, 4, 5, 6]).countP
      (fun p => decide ((1 : EH) ∈ p.2)) = 1 :=
  (C6_separate_partition [(101, (1, 2, 3)), (102, (4, 5, 6))] [1, 2, 3, 4, 5, 6]
    (by decide) (by decide)).1 1 (by decide)

/-- Counterexample for **C7**: a band input with zero triangles (hence zero
vertices) produces a silently empty patch list — `__separate`'s `while` guard
fails immediately, and no `EmptyMeshError` (or any exception class) exists
anywhere in the source, contradicting the claim that an empty mesh raises. -/
theorem C7_empty_mesh_counterexample :
    separate ([] : Tris) ([] : List EH) = ([] : List Patch) := rfl

/-- **C7 (amended).** Loading a band file with zero triangles yields an empty
patch list for that band and no error signal of any kind: the separator is a
total function on its inputs and the source defines no `EmptyMeshError` or
`MalformedMeshError`. -/
theorem C7_empty_mesh_amended (tris : Tris) :
    separate tris ([] : List EH) = ([] : List Patch) := rfl

/-! ### Imprint/merge state machine: `__compare_surfs` and `__imprint_merge`
(vol.py 572-773)

The state mirrors the mutable data the source works on: the MOAB core's vertex
coordinates and triangle connectivity, per-meshset membership lists, the
`isovol_meshsets` volume records, the `surf_curve` dictionary (insertion
ordered), the two sparse tags, and the fresh-handle counter standing for MOAB's
handle allocation.  `compared` is a ghost field recording which `(s1, s2)`
pairs the inner loop iterates over; nothing in the model reads it. -/

/-- One `isovol_meshsets` record: the band index, the file-set handle (what the
source tags senses with, `v[1]`), the `bounds` pair and the mutable
`surfs_EH` list. -/
structure Vol where
  idx : Nat
  fs : EH
  lower : Option ℤ
  upper : Option ℤ
  surfs : List EH
deriving Repr, DecidableEq

structure GeomState where
  coords : List (EH × Pt)
  tris : Tris
  surfVerts : List (EH × List EH)
  surfTris : List (EH × List EH)
  curveVerts : List (EH × List EH)
  curveEdges : List (EH × List (EH × EH))
  vols : List Vol
  surfCurve : List (EH × List EH)
  senseTag : List (EH × (EH × EH))
  valTag : List (EH × ℤ)
  next : EH
  compared : List (EH × EH)
deriving Repr

def surfVertsOf (σ : GeomState) (s : EH) : List EH :=
  (List.lookup s σ.surfVerts).getD []

def surfTrisOf (σ : GeomState) (s : EH) : List EH :=
  (List.lookup s σ.surfTris).getD []

def volAt (σ : GeomState) (p : Nat) : Vol := σ.vols.getD p ⟨0, 0, none, none, []⟩

/-- Membership updates are prepended; `List.lookup` finds the most recent
binding, so this is overwrite semantics. -/
def setSurfVerts (σ : GeomState) (s : EH) (l : List EH) : GeomState :=
  { σ with surfVerts := (s, l) :: σ.surfVerts }

def setSurfTris (σ : GeomState) (s : EH) (l : List EH) : GeomState :=
  { σ with surfTris := (s, l) :: σ.surfTris }

def setCurveVerts (σ : GeomState) (c : EH) (l : List EH) : GeomState :=
  { σ with curveVerts := (c, l) :: σ.curveVerts }

def setCurveEdges (σ : GeomState) (c : EH) (l : List (EH × EH)) : GeomState :=
  { σ with curveEdges := (c, l) :: σ.curveEdges }

def tagSense (σ : GeomState) (s : EH) (pr : EH × EH) : GeomState :=
  { σ with senseTag := (s, pr) :: σ.senseTag }

def tagVal (σ : GeomState) (s : EH) (v : ℤ) : GeomState :=
  { σ with valTag := (s, v) :: σ.valTag }

def modifyVol (σ : GeomState) (p : Nat) (f : Vol → Vol) : GeomState :=
  { σ with vols := σ.vols.set p (f (volAt σ p)) }

/-- In-place update of one key's list in the `surf_curve` dictionary (keeps key
order, as a Python dict value append does). -/
def updCurveList (l : List (EH × List EH)) (k : EH) (f : List EH → List EH) :
    List (EH × List EH) :=
  l.map (fun e => if e.1 = k then (k, f e.2) else e)

/-- `self.surf_curve[s].append(curve)`. -/
def appendCurve (σ : GeomState) (s c : EH) : GeomState :=
  { σ with surfCurve := updCurveList σ.surfCurve s (fun l => l ++ [c]) }

/-- `self.surf_curve[k] = []` — dict assignment: replace if present, else add
the key (in insertion order). -/
def dictSetEmpty (l : List (EH × List EH)) (k : EH) : List (EH × List EH) :=
  if (List.lookup k l).isSome then updCurveList l k (fun _ => []) else l ++ [(k, [])]

/-- `if k not in self.surf_curve.keys(): self.surf_curve[k] = []`
(vol.py 593-594 and 597-598). -/
def initCurveEntry (σ : GeomState) (k : EH) : GeomState :=
  if (List.lookup k σ.surfCurve).isSome then σ
  else { σ with surfCurve := σ.surfCurve ++ [(k, [])] }

/-- `__list_coords` (vol.py 431-464), plain orientation: handle to coordinate. -/
def listCoords (σ : GeomState) (s : EH) : List (EH × Pt) :=
  (surfVertsOf σ s).filterMap (fun v =>
    (List.lookup v σ.coords).map (fun c => (v, c)))

/-- `__list_coords` with `invert=True`: coordinate to handle.  The source
builds a dict, which collapses duplicate coordinates to the last one; surfaces
produced by the pipeline have distinct coordinates, and the model keeps the
list with `List.lookup` taking the first hit. -/
def listCoordsInv (σ : GeomState) (s : EH) : List (Pt × EH) :=
  (surfVertsOf σ s).filterMap (fun v =>
    (List.lookup v σ.coords).map (fun c => (c, v)))

/-- An undirected edge, normalized smaller handle first. -/
def nEdge (a b : EH) : EH × EH := if a ≤ b then (a, b) else (b, a)

def triEdges (c : TriConn) : List (EH × EH) :=
  [nEdge c.1 c.2.1, nEdge c.1 c.2.2, nEdge c.2.1 c.2.2]

/-- `Skinner.find_skin(surf, tris1, False, False)` (vol.py 625-626): the
boundary edges of the given triangle set — the edges used by exactly one of the
set's triangles. -/
def skinEdgesOf (tris : Tris) (ids : List EH) : List (EH × EH) :=
  let es := (tris.filter (fun t => decide (t.1 ∈ ids))).flatMap
    (fun t => triEdges t.2)
  (es.filter (fun e => decide (es.count e = 1))).dedup

/-- `Skinner.find_skin(surf, tris1, True, False)`: the vertices of the
boundary edges. -/
def skinVertsOf (tris : Tris) (ids : List EH) : List EH :=
  ((skinEdgesOf tris ids).flatMap (fun e => [e.1, e.2])).dedup

/-- One triangle's connectivity after replacing vertex `v` by `r` in every slot
(the `for i, tv in enumerate(tri_verts)` rewrite, vol.py 656-663). -/
def replTri (v r : EH) (c : TriConn) : TriConn :=
  (if c.1 = v then r else c.1,
   if c.2.1 = v then r else c.2.1,
   if c.2.2 = v then r else c.2.2)

/-- Rewrite every triangle currently referencing `v`
(`mb.get_adjacencies(vert_delete, 2)` then `set_connectivity`). -/
def stitchOne (tris : Tris) (v r : EH) : Tris :=
  tris.map (fun t => if v ∈ triVerts t.2 then (t.1, replTri v r t.2) else t)

/-- The full stitching loop `for vert_delete in s2_match_eh` (vol.py 641-663):
sequentially rewrite each matched B vertex to its A partner from
`match_dict`. -/
def stitchAll (md : List (EH × EH)) : Tris → List EH → Tris
  | tris, [] => tris
  | tris, v :: rest => stitchAll md (stitchOne tris v ((List.lookup v md).getD 0)) rest

/-- The shared value tag (vol.py 684-693): the first element of the
intersection of the two `bounds` tuples, times `norm`; `0` when the
intersection is empty (the `no matching value!` branch).  The source's
intersection is a Python set with unspecified order; the model lists the lower
bound first.  When the shared element is `None` (only possible when both bands
share an unbounded side, i.e. a single-level geometry) the source would raise
on `None * norm`; the model yields 0 and the concrete scenarios avoid this. -/
def sharedVal (norm : ℤ) (v1 v2 : Vol) : ℤ :=
  let b1 := ([v1.lower, v1.upper].dedup).filter
    (fun b => decide (b = v2.lower ∨ b = v2.upper))
  match b1 with
  | [] => 0
  | ob :: _ => (ob.getD 0) * norm

structure BodyOut where
  st : GeomState
  ms : List EH
  brk : Bool

/-- Steps `surf = mb.create_meshset(); add_entities(surf, tris1);
add_entities(surf, s1_match_eh); self.surf_curve[surf] = []`
(vol.py 618-621), together with the handle allocation. -/
def newSurfStep (surf : EH) (tris1 : List EH) (mo : MatchOut) (σ : GeomState) :
    GeomState :=
  let σ1 := { σ with next := σ.next + 1 }
  let σ2 := setSurfTris σ1 surf tris1
  let σ3 := setSurfVerts σ2 surf mo.sAeh
  { σ3 with surfCurve := dictSetEmpty σ3.surfCurve surf }

/-- The skin extraction and, when the skin is non-empty, the curve creation,
its registration under `s1`, `s2` and the new surface, and the connectivity
stitching loop (vol.py 623-663).  When the skin is empty nothing happens —
in particular **no stitching** (the basis of C3). -/
def curveStep (s1 s2 surf : EH) (mo : MatchOut) (tris1 : List EH)
    (σ : GeomState) : GeomState :=
  let cv := skinVertsOf σ.tris tris1
  let ce := skinEdgesOf σ.tris tris1
  if cv = [] then σ
  else
    let curve := σ.next
    let σa := { σ with next := σ.next + 1 }
    let σb := setCurveVerts σa curve cv
    let σc := setCurveEdges σb curve ce
    let σd := appendCurve σc s1 curve
    let σe := appendCurve σd s2 curve
    let σf := appendCurve σe surf curve
    { σf with tris := stitchAll mo.mdict σf.tris mo.sBeh }

/-- `remove_entities` from `s1` and `s2` and `delete_entities(tris2)`
(vol.py 666-672). -/
def removalStep (s1 s2 : EH) (mo : MatchOut) (tris1 tris2 : List EH)
    (σ : GeomState) : GeomState :=
  let σ6 := setSurfTris σ s1 ((surfTrisOf σ s1).filter (fun t => decide (t ∉ tris1)))
  let σ7 := setSurfVerts σ6 s1 ((surfVertsOf σ6 s1).filter (fun v => decide (v ∉ mo.sAeh)))
  let σ8 := setSurfTris σ7 s2 ((surfTrisOf σ7 s2).filter (fun t => decide (t ∉ tris2)))
  let σ9 := setSurfVerts σ8 s2 ((surfVertsOf σ8 s2).filter (fun v => decide (v ∉ mo.sBeh)))
  { σ9 with tris := σ9.tris.filter (fun t => decide (t.1 ∉ tris2)) }

/-- The sense and value tagging of the new shared surface (vol.py 674-693):
sense `[forward = v1 file set, backward = v2 file set]`, value = shared bound
times `norm`. -/
def tagStep (norm : ℤ) (p1 p2 : Nat) (surf : EH) (σ : GeomState) : GeomState :=
  tagVal (tagSense σ surf ((volAt σ p1).fs, (volAt σ p2).fs)) surf
    (sharedVal norm (volAt σ p1) (volAt σ p2))

/-- The body of the inner `for s2` loop of `__compare_surfs` (vol.py 600-712),
from the `__get_matches` call through tagging to the two emptiness checks.
`p1, p2` are positions of the two volumes in `σ.vols`; `verts1` is the
coordinate list of `s1` computed once at `s1`'s loop entry (vol.py 590, not
refreshed as `s1` shrinks); `ms` accumulates `match_surfs`.  `brk` signals the
`break` on an emptied `s1`. -/
def mergeBody (tol norm : ℤ) (p1 p2 : Nat) (s1 : EH) (verts1 : List (EH × Pt))
    (s2 : EH) (ms : List EH) (σ : GeomState) : BodyOut :=
  let mo := getMatches tol verts1 (listCoordsInv σ s2)
  if mo.sAeh = [] then ⟨σ, ms, false⟩ else
  let tris1 := getSurfTriangles σ.tris mo.sAeh
  let tris2 := getSurfTriangles σ.tris mo.sBeh
  let surf := σ.next
  let σA := newSurfStep surf tris1 mo σ
  let σB := curveStep s1 s2 surf mo tris1 σA
  let σC := removalStep s1 s2 mo tris1 tris2 σB
  let σD := tagStep norm p1 p2 surf σC
  let ms2 := ms ++ [surf]
  let σE :=
    if surfVertsOf σD s2 = [] then
      modifyVol σD p2 (fun v => { v with surfs := v.surfs.erase s2 })
    else σD
  if surfVertsOf σE s1 = [] then
    ⟨modifyVol σE p1 (fun v => { v with surfs := v.surfs.erase s1 }), ms2, true⟩
  else ⟨σE, ms2, false⟩

/-- The inner `for s2 in self.isovol_meshsets[v2]['surfs_EH']` loop with
Python's index-based iterator semantics: the index advances by one per step
against the list's **current** contents, so a `remove` of the current element
shifts the successor under the index and skips it (the behaviour C2 is about).
The ghost field `compared` records each pair the body runs on.
Start of one inner iteration: record the pair in the ghost `compared`
trace, then the `surf_curve` initialization for `s2` (vol.py 597-598). -/
def iterState (s1 s2 : EH) (σ : GeomState) : GeomState :=
  initCurveEntry { σ with compared := σ.compared ++ [(s1, s2)] } s2

def innerLoop (tol norm : ℤ) (p1 p2 : Nat) (s1 : EH) (verts1 : List (EH × Pt)) :
    Nat → Nat → List EH → GeomState → GeomState × List EH × Bool
  | 0, _, ms, σ => (σ, ms, false)
  | fuel + 1, i2, ms, σ =>
    let l2 := (volAt σ p2).surfs
    if i2 < l2.length then
      let s2 := l2.getD i2 0
      let out := mergeBody tol norm p1 p2 s1 verts1 s2 ms (iterState s1 s2 σ)
      if out.brk then (out.st, out.ms, true)
      else innerLoop tol norm p1 p2 s1 verts1 fuel (i2 + 1) out.ms out.st
    else (σ, ms, false)

/-- The outer `for s1 in self.isovol_meshsets[v1]['surfs_EH']` loop, same
index semantics (a removed `s1` likewise shifts the outer list). -/
def outerLoop (tol norm : ℤ) (p1 p2 : Nat) :
    Nat → Nat → List EH → GeomState → GeomState × List EH
  | 0, _, ms, σ => (σ, ms)
  | fuel + 1, i1, ms, σ =>
    let l1 := (volAt σ p1).surfs
    if i1 < l1.length then
      let s1 := l1.getD i1 0
      let verts1 := listCoords σ s1
      let σi := initCurveEntry σ s1
      let r := innerLoop tol norm p1 p2 s1 verts1
        ((volAt σi p2).surfs.length + 1) 0 ms σi
      outerLoop tol norm p1 p2 fuel (i1 + 1) r.2.1 r.1
    else (σ, ms)

/-- `__compare_surfs` (vol.py 572-716) for the volume pair at positions
`p1, p2`: the two nested loops, then the `extend` of both volumes' lists with
`match_surfs`. -/
def compareSurfs (tol norm : ℤ) (p1 p2 : Nat) (σ : GeomState) : GeomState :=
  let r := outerLoop tol norm p1 p2 ((volAt σ p1).surfs.length + 1) 0 [] σ
  let σx := modifyVol r.1 p1 (fun v => { v with surfs := v.surfs ++ r.2 })
  modifyVol σx p2 (fun v => { v with surfs := v.surfs ++ r.2 })

/-- The `for i, isovol in enumerate(all_vols)` loop of `__imprint_merge`
(vol.py 741-747): compare each volume with its successor, skipping the last
index (`i != len(self.levels)`). -/
def passLoop (tol norm : ℤ) (nLevels : Nat) : Nat → Nat → GeomState → GeomState
  | 0, _, σ => σ
  | fuel + 1, i, σ =>
    if i < σ.vols.length then
      passLoop tol norm nLevels fuel (i + 1)
        (if i = nLevels then σ else compareSurfs tol norm i (i + 1) σ)
    else σ

/-- `mb.add_entities(surf, tris)`: meshsets have set semantics, so only the
handles not already present are added. -/
def addSurfTris (σ : GeomState) (s : EH) (ts : List EH) : GeomState :=
  setSurfTris σ s
    ((surfTrisOf σ s) ++ ts.filter (fun t => decide (t ∉ surfTrisOf σ s)))

/-- The post-pass body for one listed surface (vol.py 751-773): if the value
tag is missing, tag 0, recompute the triangles supported by the surface's
current vertex set and add them; if the sense tag is missing, tag
`(fwd = own volume's file set, bwd = uint64(0))`. -/
def postSurf (volfs : EH) (σ : GeomState) (s : EH) : GeomState :=
  let σ1 :=
    match List.lookup s σ.valTag with
    | some _ => σ
    | none =>
      let σv := tagVal σ s 0
      addSurfTris σv s (getSurfTriangles σv.tris (surfVertsOf σv s))
  match List.lookup s σ1.senseTag with
  | some _ => σ1
  | none => tagSense σ1 s (volfs, 0)

/-- The post-pass double loop (vol.py 751-773).  `postSurf` never modifies
`vols`, so folding over the entry snapshot of the lists equals the source's
iteration over the live lists. -/
def postPass (σ : GeomState) : GeomState :=
  σ.vols.foldl (fun acc v => v.surfs.foldl (fun a s => postSurf v.fs a s) acc) σ

/-- `__imprint_merge` (vol.py 718-773): the adjacent-pair comparison loop
followed by the value/sense post-pass.  (The tag-handle creation at the top of
the source function has no data content in the model.) -/
def imprintMerge (tol norm : ℤ) (nLevels : Nat) (σ : GeomState) : GeomState :=
  postPass (passLoop tol norm nLevels σ.vols.length 0 σ)

/-! ### Hierarchy builder: `__make_family` (vol.py 775-830) -/

def catVolume : String := "Volume"
def catSurface : String := "Surface"
def catCurve : String := "Curve"

/-- The assembled tag tables: geometry dimension, category, global id (most
recent assignment first — `tag_set_data` overwrites) and the parent-child
pairs. -/
structure Family where
  geomDim : List (EH × Nat)
  category : List (EH × String)
  globalId : List (EH × Nat)
  parentChild : List (EH × EH)
deriving Repr

/-- Inner surface loop of `__make_family` (vol.py 810-818): parent link,
dimension 2, running surface id. -/
def famSurfs (volfs : EH) : List EH → Nat → Family → Family × Nat
  | [], sid, f => (f, sid)
  | s :: rest, sid, f =>
    famSurfs volfs rest (sid + 1)
      { f with
          parentChild := f.parentChild ++ [(volfs, s)]
          geomDim := (s, 2) :: f.geomDim
          category := (s, catSurface) :: f.category
          globalId := (s, sid + 1) :: f.globalId }

/-- Volume tagging (vol.py 804-808). -/
def famVolTag (v : Vol) (vid : Nat) (f : Family) : Family :=
  { f with
      geomDim := (v.fs, 3) :: f.geomDim
      category := (v.fs, catVolume) :: f.category
      globalId := (v.fs, vid + 1) :: f.globalId }

/-- Volume loop of `__make_family` (vol.py 801-818). -/
def famVols : List Vol → Nat → Nat → Family → Family
  | [], _, _, f => f
  | v :: rest, vid, sid, f =>
    let r := famSurfs v.fs v.surfs sid (famVolTag v vid f)
    famVols rest (vid + 1) r.2 r.1

/-- Curves of one `surf_curve` entry (vol.py 822-830). -/
def famCurveList (skey : EH) : List EH → Nat → Family → Family × Nat
  | [], cid, f => (f, cid)
  | c :: rest, cid, f =>
    famCurveList skey rest (cid + 1)
      { f with
          parentChild := f.parentChild ++ [(skey, c)]
          geomDim := (c, 1) :: f.geomDim
          category := (c, catCurve) :: f.category
          globalId := (c, cid + 1) :: f.globalId }

/-- Curve loop of `__make_family` (vol.py 820-830), over the `surf_curve`
dictionary. -/
def famCurves : List (EH × List EH) → Nat → Family → Family
  | [], _, f => f
  | e :: rest, cid, f =>
    let r := famCurveList e.1 e.2 cid f
    famCurves rest r.2 r.1

/-- `__make_family` (vol.py 775-830). -/
def makeFamily (σ : GeomState) : Family :=
  famCurves σ.surfCurve 0 (famVols σ.vols 0 0 ⟨[], [], [], []⟩)

/-! ### Concrete scenarios -/

/-- Scenario for C2: volume 0 holds one patch `201` (two triangles sharing
vertex 3), volume 1 holds patch `202` (coincident with `201`'s first triangle)
followed by patch `203` (far away).  Matching `201` against `202` empties
`202`, whose removal from the list mid-iteration shifts `203` under the
iterator's index.  A third volume keeps every compared bounds intersection a
singleton, as with any geometry with at least two levels. -/
def skipScenario : GeomState where
  coords := [(1, ⟨0, 0, 0⟩), (2, ⟨1, 0, 0⟩), (3, ⟨0, 1, 0⟩), (4, ⟨0, 9, 0⟩),
    (5, ⟨1, 9, 0⟩), (11, ⟨0, 0, 0⟩), (12, ⟨1, 0, 0⟩), (13, ⟨0, 1, 0⟩),
    (14, ⟨9, 9, 9⟩), (15, ⟨10, 9, 9⟩), (16, ⟨9, 10, 9⟩)]
  tris := [(101, (1, 2, 3)), (102, (3, 4, 5)), (111, (11, 12, 13)),
    (112, (14, 15, 16))]
  surfVerts := [(201, [1, 2, 3, 4, 5]), (202, [11, 12, 13]), (203, [14, 15, 16])]
  surfTris := [(201, [101, 102]), (202, [111]), (203, [112])]
  curveVerts := []
  curveEdges := []
  vols := [⟨0, 301, none, some 1, [201]⟩, ⟨1, 302, some 1, some 2, [202, 203]⟩,
    ⟨2, 303, some 2, none, []⟩]
  surfCurve := []
  senseTag := []
  valTag := []
  next := 400
  compared := []

/-- **C2 (code evidence).** In `__compare_surfs` on `skipScenario`, patch `203`
is present in volume 1's list when the pass starts and patch `201` never
becomes vertex-empty (it is still listed at the end), yet the pair
`(201, 203)` is never compared: after `202` is emptied and removed from the
list being iterated, the index-based Python iterator skips `203`.  The claim
that only an emptied `s1` stops comparisons is violated by the code. -/
theorem C2_pair_skipped :
    (volAt skipScenario 1).surfs = [202, 203] ∧
    (compareSurfs 1 1 0 1 skipScenario).compared = [(201, 202)] ∧
    (201, 203) ∉ (compareSurfs 1 1 0 1 skipScenario).compared ∧
    201 ∈ (volAt (compareSurfs 1 1 0 1 skipScenario) 0).surfs ∧
    surfVertsOf (compareSurfs 1 1 0 1 skipScenario) 201 ≠ [] := by decide

/-- Scenario for C3: volume 0 holds a closed tetrahedron patch `201`; volume 1
holds patch `202`, a coincident tetrahedron plus a flap triangle `115` hanging
off its vertex `11`.  All four tetrahedron vertices match, the shared patch is
closed (empty skin), and the source then skips connectivity stitching: `115`
keeps its reference to the matched (and supposedly deleted) B-vertex `11`. -/
def tetScenario : GeomState where
  coords := [(1, ⟨0, 0, 0⟩), (2, ⟨4, 0, 0⟩), (3, ⟨0, 4, 0⟩), (4, ⟨0, 0, 4⟩),
    (11, ⟨0, 0, 0⟩), (12, ⟨4, 0, 0⟩), (13, ⟨0, 4, 0⟩), (14, ⟨0, 0, 4⟩),
    (15, ⟨9, 0, 0⟩), (16, ⟨9, 4, 0⟩)]
  tris := [(101, (1, 2, 3)), (102, (1, 2, 4)), (103, (1, 3, 4)), (104, (2, 3, 4)),
    (111, (11, 12, 13)), (112, (11, 12, 14)), (113, (11, 13, 14)),
    (114, (12, 13, 14)), (115, (11, 15, 16))]
  surfVerts := [(201, [1, 2, 3, 4]), (202, [11, 12, 13, 14, 15, 16])]
  surfTris := [(201, [101, 102, 103, 104]), (202, [111, 112, 113, 114, 115])]
  curveVerts := []
  curveEdges := []
  vols := [⟨0, 301, none, some 1, [201]⟩, ⟨1, 302, some 1, some 2, [202]⟩,
    ⟨2, 303, some 2, none, []⟩]
  surfCurve := []
  senseTag := []
  valTag := []
  next := 400
  compared := []

/-- Scenario for C5, C9 and the C1 witness: three volumes; volume 0's single
triangle patch `201` coincides with volume 1's patch `202` (both fully
consumed into the shared patch with a boundary curve), volume 2 keeps its own
far-away patch `203`. -/
def mergeScenario : GeomState where
  coords := [(1, ⟨0, 0, 0⟩), (2, ⟨4, 0, 0⟩), (3, ⟨0, 4, 0⟩),
    (11, ⟨0, 0, 0⟩), (12, ⟨4, 0, 0⟩), (13, ⟨0, 4, 0⟩),
    (21, ⟨9, 9, 9⟩), (22, ⟨13, 9, 9⟩), (23, ⟨9, 13, 9⟩)]
  tris := [(101, (1, 2, 3)), (111, (11, 12, 13)), (121, (21, 22, 23))]
  surfVerts := [(201, [1, 2, 3]), (202, [11, 12, 13]), (203, [21, 22, 23])]
  surfTris := [(201, [101]), (202, [111]), (203, [121])]
  curveVerts := []
  curveEdges := []
  vols := [⟨0, 301, none, some 1, [201]⟩, ⟨1, 302, some 1, some 2, [202]⟩,
    ⟨2, 303, some 2, none, [203]⟩]
  surfCurve := []
  senseTag := []
  valTag := []
  next := 400
  compared := []

/-- Counterexample for **C3**: on `tetScenario`, matches are found
(`s2`'s matched vertices are 11-14), the shared patch is created and
sense-tagged, its skin is empty (no curve appears), and the flap triangle
`115` — outside the shared patch — still references the matched B-vertex `11`
afterwards: connectivity stitching did **not** run, because the rewrite loop
sits inside the non-empty-skin branch (vol.py 630-663). -/
theorem C3_stitch_skipped_counterexample :
    (getMatches 1 (listCoords tetScenario 201) (listCoordsInv tetScenario 202)).sBeh
        = [11, 12, 13, 14] ∧
    (List.lookup 400 (compareSurfs 1 1 0 1 tetScenario).senseTag).isSome = true ∧
    (compareSurfs 1 1 0 1 tetScenario).curveVerts = [] ∧
    List.lookup 115 (compareSurfs 1 1 0 1 tetScenario).tris = some (11, 15, 16) := by
  decide

/-- Counterexample for **C5**: after the full imprint/merge on
`mergeScenario`, the final hierarchy lists exactly two distinct surfaces (the
shared patch `400`, in both volume lists, and `203`), but their GLOBAL_ID
values are 2 and 3 — no listed surface carries id 1, because `400` was tagged
id 1 at its first visit and then re-tagged id 2 at its second.  The ids are
not the contiguous range `1..N`. -/
theorem C5_id_gap_counterexample :
    ((imprintMerge 1 1 2 mergeScenario).vols.map (fun v => v.surfs))
        = [[400], [400], [203]] ∧
    List.lookup 400 (makeFamily (imprintMerge 1 1 2 mergeScenario)).globalId
        = some 2 ∧
    List.lookup 203 (makeFamily (imprintMerge 1 1 2 mergeScenario)).globalId
        = some 3 ∧
    (∀ v ∈ (imprintMerge 1 1 2 mergeScenario).vols, ∀ s ∈ v.surfs,
      List.lookup s (makeFamily (imprintMerge 1 1 2 mergeScenario)).globalId
        ≠ some 1) := by
  decide

/-- Counterexample for **C9**: in the hierarchy built from `mergeScenario`,
curve `401` is a child of **three** distinct surface patches — `s1 = 201`,
`s2 = 202` and the shared patch `400` — because `__compare_surfs` registers
every new curve under all three (vol.py 635-637) and `__make_family` adds one
parent link per registration. -/
theorem C9_three_parents_counterexample :
    (List.lookup 401 (imprintMerge 1 1 2 mergeScenario).curveVerts).isSome = true ∧
    ((makeFamily (imprintMerge 1 1 2 mergeScenario)).parentChild.filter
        (fun e => decide (e.2 = 401))).map (fun e => e.1) = [201, 202, 400] ∧
    ([201, 202, 400] : List EH).Nodup := by
  decide

/-! ### C10: the post-pass frame effect -/

theorem lookup_cons_self {α β : Type} [DecidableEq α] (a : α) (b : β)
    (l : List (α × β)) : List.lookup a ((a, b) :: l) = some b := by
  simp [List.lookup]

theorem surfTrisOf_tagVal (σ : GeomState) (s : EH) (v : ℤ) (t : EH) :
    surfTrisOf (tagVal σ s v) t = surfTrisOf σ t := rfl

theorem tris_tagVal (σ : GeomState) (s : EH) (v : ℤ) :
    (tagVal σ s v).tris = σ.tris := rfl

theorem surfVertsOf_tagVal (σ : GeomState) (s : EH) (v : ℤ) (t : EH) :
    surfVertsOf (tagVal σ s v) t = surfVertsOf σ t := rfl

theorem surfTrisOf_tagSense (σ : GeomState) (s : EH) (pr : EH × EH) (t : EH) :
    surfTrisOf (tagSense σ s pr) t = surfTrisOf σ t := rfl

theorem surfVertsOf_tagSense (σ : GeomState) (s : EH) (pr : EH × EH) (t : EH) :
    surfVertsOf (tagSense σ s pr) t = surfVertsOf σ t := rfl

theorem surfTrisOf_setSurfTris_self (σ : GeomState) (s : EH) (l : List EH) :
    surfTrisOf (setSurfTris σ s l) s = l := by
  simp [surfTrisOf, setSurfTris, lookup_cons_self]

/-- A state in which an untagged patch's vertex set supports a triangle the
patch does not yet contain: the post-pass adds triangle `777` to patch
`203`. -/
def growScenario : GeomState where
  coords := [(21, ⟨0, 0, 0⟩), (22, ⟨4, 0, 0⟩), (23, ⟨0, 4, 0⟩)]
  tris := [(777, (21, 22, 23))]
  surfVerts := [(203, [21, 22, 23])]
  surfTris := [(203, [])]
  curveVerts := []
  curveEdges := []
  vols := [⟨0, 303, some 1, some 2, [203]⟩]
  surfCurve := []
  senseTag := []
  valTag := []
  next := 800
  compared := []

/-- **C10.** The post-pass body of `__imprint_merge`: a surface with no value
tag receives value 0 **and** has the triangles supported by its current vertex
set recomputed from the global store and added to its meshset (so membership
can grow, as the concrete state `growScenario` shows, where triangle 777 is
absent before and present after); a surface that already carries a value tag
keeps its triangle and vertex membership unchanged. -/
theorem C10_postpass_adds_triangles :
    (∀ σ volfs s, List.lookup s σ.valTag = none →
      surfTrisOf (postSurf volfs σ s) s =
        surfTrisOf σ s ++ (getSurfTriangles σ.tris (surfVertsOf σ s)).filter
          (fun t => decide (t ∉ surfTrisOf σ s))) ∧
    (∀ σ volfs s, (List.lookup s σ.valTag).isSome →
      surfTrisOf (postSurf volfs σ s) s = surfTrisOf σ s ∧
      surfVertsOf (postSurf volfs σ s) s = surfVertsOf σ s) ∧
    (List.lookup 203 growScenario.valTag = none ∧
      (777 : EH) ∉ surfTrisOf growScenario 203 ∧
      (777 : EH) ∈ surfTrisOf (postSurf 303 growScenario 203) 203) := by
  refine ⟨?_, ?_, by decide, by decide, by decide⟩
  · intro σ volfs s hval
    simp only [postSurf, hval]
    split
    · simp [addSurfTris, surfTrisOf_tagVal, surfVertsOf_tagVal, tris_tagVal,
        surfTrisOf_setSurfTris_self]
    · simp [addSurfTris, surfTrisOf_tagVal, surfVertsOf_tagVal, tris_tagVal,
        surfTrisOf_tagSense, surfTrisOf_setSurfTris_self]
  · intro σ volfs s hval
    obtain ⟨v, hv⟩ := Option.isSome_iff_exists.mp hval
    simp only [postSurf, hv]
    split
    · exact ⟨rfl, rfl⟩
    · exact ⟨rfl, rfl⟩

/-- Witness for C10's universally quantified parts at `growScenario`. -/
theorem C10_postpass_adds_triangles_witness :
    surfTrisOf (postSurf 303 growScenario 203) 203 =
      surfTrisOf growScenario 203 ++
        (getSurfTriangles growScenario.tris (surfVertsOf growScenario 203)).filter
          (fun t => decide (t ∉ surfTrisOf growScenario 203)) :=
  C10_postpass_adds_triangles.1 growScenario 303 203 (by decide)

/-! ### Projection lemmas for the merge machinery, and C1 -/

def volDefault : Vol := ⟨0, 0, none, none, []⟩

/-- The file-set handles of the volumes, in list position order.  Stable under
the whole imprint/merge (only the `surfs` fields mutate). -/
def fsListOf (σ : GeomState) : List EH := σ.vols.map (fun v => v.fs)

theorem map_fs_set (l : List Vol) (p : Nat) (f : Vol → Vol)
    (hf : ∀ v, (f v).fs = v.fs) :
    (l.set p (f (l.getD p volDefault))).map (fun v => v.fs) =
      l.map (fun v => v.fs) := by
  induction l generalizing p with
  | nil => simp
  | cons v rest ih =>
    cases p with
    | zero => simp [hf]
    | succ p =>
      have hstep : (v :: rest).set (p + 1) (f ((v :: rest).getD (p + 1) volDefault))
          = v :: rest.set p (f (rest.getD p volDefault)) := rfl
      rw [hstep, List.map_cons, List.map_cons, ih p]

theorem fsListOf_modifyVol (σ : GeomState) (p : Nat) (f : Vol → Vol)
    (hf : ∀ v, (f v).fs = v.fs) : fsListOf (modifyVol σ p f) = fsListOf σ := by
  have := map_fs_set σ.vols p f hf
  simpa [fsListOf, modifyVol, volAt, volDefault] using this

theorem senseTag_modifyVol (σ : GeomState) (p : Nat) (f : Vol → Vol) :
    (modifyVol σ p f).senseTag = σ.senseTag := rfl

theorem fsList_length (σ : GeomState) : (fsListOf σ).length = σ.vols.length := by
  simp [fsListOf]

theorem fsList_volAt (σ : GeomState) (p : Nat) (h : p < σ.vols.length) :
    (fsListOf σ)[p]? = some (volAt σ p).fs := by
  simp only [fsListOf, List.getElem?_map]
  rw [List.getElem?_eq_getElem h, volAt, List.getD_eq_getElem σ.vols _ h]
  rfl

theorem newSurfStep_vols (surf : EH) (t1 : List EH) (mo : MatchOut)
    (σ : GeomState) : (newSurfStep surf t1 mo σ).vols = σ.vols := rfl

theorem newSurfStep_senseTag (surf : EH) (t1 : List EH) (mo : MatchOut)
    (σ : GeomState) : (newSurfStep surf t1 mo σ).senseTag = σ.senseTag := rfl

theorem curveStep_vols (s1 s2 surf : EH) (mo : MatchOut) (t1 : List EH)
    (σ : GeomState) : (curveStep s1 s2 surf mo t1 σ).vols = σ.vols := by
  simp only [curveStep]
  split <;> rfl

theorem curveStep_senseTag (s1 s2 surf : EH) (mo : MatchOut) (t1 : List EH)
    (σ : GeomState) : (curveStep s1 s2 surf mo t1 σ).senseTag = σ.senseTag := by
  simp only [curveStep]
  split <;> rfl

theorem removalStep_vols (s1 s2 : EH) (mo : MatchOut) (t1 t2 : List EH)
    (σ : GeomState) : (removalStep s1 s2 mo t1 t2 σ).vols = σ.vols := rfl

theorem removalStep_senseTag (s1 s2 : EH) (mo : MatchOut) (t1 t2 : List EH)
    (σ : GeomState) : (removalStep s1 s2 mo t1 t2 σ).senseTag = σ.senseTag := rfl

theorem tagStep_vols (norm : ℤ) (p1 p2 : Nat) (surf : EH) (σ : GeomState) :
    (tagStep norm p1 p2 surf σ).vols = σ.vols := rfl

theorem tagStep_senseTag (norm : ℤ) (p1 p2 : Nat) (surf : EH) (σ : GeomState) :
    (tagStep norm p1 p2 surf σ).senseTag =
      (surf, ((volAt σ p1).fs, (volAt σ p2).fs)) :: σ.senseTag := rfl

theorem initCurveEntry_vols (σ : GeomState) (k : EH) :
    (initCurveEntry σ k).vols = σ.vols := by
  unfold initCurveEntry
  split <;> rfl

theorem initCurveEntry_senseTag (σ : GeomState) (k : EH) :
    (initCurveEntry σ k).senseTag = σ.senseTag := by
  unfold initCurveEntry
  split <;> rfl

theorem volAt_eq_of_vols_eq {σ1 σ2 : GeomState} (h : σ1.vols = σ2.vols)
    (p : Nat) : volAt σ1 p = volAt σ2 p := by
  simp [volAt, h]

/-- The merge body either leaves the sense table unchanged (no matches) or
prepends exactly one entry, keyed by the freshly allocated surface handle and
valued with the two volumes' file sets in position order. -/
theorem mergeBody_senseTag (tol norm : ℤ) (p1 p2 : Nat) (s1 : EH)
    (verts1 : List (EH × Pt)) (s2 : EH) (ms : List EH) (σ : GeomState) :
    (mergeBody tol norm p1 p2 s1 verts1 s2 ms σ).st.senseTag = σ.senseTag ∨
    (mergeBody tol norm p1 p2 s1 verts1 s2 ms σ).st.senseTag =
      (σ.next, ((volAt σ p1).fs, (volAt σ p2).fs)) :: σ.senseTag := by
  simp only [mergeBody]
  split
  · exact Or.inl rfl
  · right
    have hvols : (removalStep s1 s2 (getMatches tol verts1 (listCoordsInv σ s2))
        (getSurfTriangles σ.tris (getMatches tol verts1 (listCoordsInv σ s2)).sAeh)
        (getSurfTriangles σ.tris (getMatches tol verts1 (listCoordsInv σ s2)).sBeh)
        (curveStep s1 s2 σ.next (getMatches tol verts1 (listCoordsInv σ s2))
          (getSurfTriangles σ.tris (getMatches tol verts1 (listCoordsInv σ s2)).sAeh)
          (newSurfStep σ.next
            (getSurfTriangles σ.tris (getMatches tol verts1 (listCoordsInv σ s2)).sAeh)
            (getMatches tol verts1 (listCoordsInv σ s2)) σ))).vols = σ.vols := by
      rw [removalStep_vols, curveStep_vols, newSurfStep_vols]
    split <;> split <;>
      simp [senseTag_modifyVol, tagStep_senseTag, removalStep_senseTag,
        curveStep_senseTag, newSurfStep_senseTag, volAt_eq_of_vols_eq hvols]

theorem fsListOf_modifyVol_erase (σ : GeomState) (p : Nat) (s : EH) :
    fsListOf (modifyVol σ p (fun v => { v with surfs := v.surfs.erase s }))
      = fsListOf σ :=
  fsListOf_modifyVol σ p _ (fun v => rfl)

theorem fsListOf_modifyVol_extend (σ : GeomState) (p : Nat) (ms : List EH) :
    fsListOf (modifyVol σ p (fun v => { v with surfs := v.surfs ++ ms }))
      = fsListOf σ :=
  fsListOf_modifyVol σ p _ (fun v => rfl)

theorem mergeBody_fsList (tol norm : ℤ) (p1 p2 : Nat) (s1 : EH)
    (verts1 : List (EH × Pt)) (s2 : EH) (ms : List EH) (σ : GeomState) :
    fsListOf (mergeBody tol norm p1 p2 s1 verts1 s2 ms σ).st = fsListOf σ := by
  simp only [mergeBody]
  split
  · rfl
  · split <;> split <;>
      (dsimp only
       try simp only [fsListOf_modifyVol_erase]
       simp [fsListOf, tagStep_vols, removalStep_vols, curveStep_vols,
         newSurfStep_vols])

/-- The sense-pair shape `__compare_surfs` assigns: the file sets of two
consecutive volumes, in list position order. -/
def senseOK (fsL : List EH) (pr : EH × EH) : Prop :=
  ∃ i, fsL[i]? = some pr.1 ∧ fsL[i + 1]? = some pr.2

theorem iterState_vols (s1 s2 : EH) (σ : GeomState) :
    (iterState s1 s2 σ).vols = σ.vols := by
  simp [iterState, initCurveEntry_vols]

theorem iterState_senseTag (s1 s2 : EH) (σ : GeomState) :
    (iterState s1 s2 σ).senseTag = σ.senseTag := by
  simp [iterState, initCurveEntry_senseTag]

theorem iterState_fsList (s1 s2 : EH) (σ : GeomState) :
    fsListOf (iterState s1 s2 σ) = fsListOf σ := by
  simp [fsListOf, iterState_vols]

theorem initCurveEntry_fsList (σ : GeomState) (k : EH) :
    fsListOf (initCurveEntry σ k) = fsListOf σ := by
  simp [fsListOf, initCurveEntry_vols]

theorem vols_length_eq_of_fsList {σ1 σ2 : GeomState}
    (h : fsListOf σ1 = fsListOf σ2) : σ1.vols.length = σ2.vols.length := by
  rw [← fsList_length, ← fsList_length, h]

theorem mergeBody_sense_entries (tol norm : ℤ) (p1 p2 : Nat) (s1 : EH)
    (verts1 : List (EH × Pt)) (s2 : EH) (ms : List EH) (σ : GeomState)
    (hp : p2 = p1 + 1) (hlt : p2 < σ.vols.length) :
    ∀ e ∈ (mergeBody tol norm p1 p2 s1 verts1 s2 ms σ).st.senseTag,
      e ∈ σ.senseTag ∨ senseOK (fsListOf σ) e.2 := by
  intro e he
  rcases mergeBody_senseTag tol norm p1 p2 s1 verts1 s2 ms σ with h | h
  · rw [h] at he
    exact Or.inl he
  · rw [h] at he
    rcases List.mem_cons.mp he with rfl | he2
    · right
      refine ⟨p1, ?_, ?_⟩
      · exact fsList_volAt σ p1 (by omega)
      · rw [← hp]
        exact fsList_volAt σ p2 hlt
    · exact Or.inl he2

theorem innerLoop_sense (tol norm : ℤ) (p1 p2 : Nat) (s1 : EH)
    (verts1 : List (EH × Pt)) (hp : p2 = p1 + 1) :
    ∀ fuel i2 ms σ, p2 < σ.vols.length →
      fsListOf (innerLoop tol norm p1 p2 s1 verts1 fuel i2 ms σ).1 = fsListOf σ ∧
      (∀ e ∈ (innerLoop tol norm p1 p2 s1 verts1 fuel i2 ms σ).1.senseTag,
        e ∈ σ.senseTag ∨ senseOK (fsListOf σ) e.2) := by
  intro fuel
  induction fuel with
  | zero =>
    intro i2 ms σ hlt
    exact ⟨rfl, fun e he => Or.inl he⟩
  | succ fuel ih =>
    intro i2 ms σ hlt
    simp only [innerLoop]
    split
    next h2 =>
      have hit : p2 < (iterState s1 ((volAt σ p2).surfs.getD i2 0) σ).vols.length := by
        rw [iterState_vols]
        exact hlt
      have hfs2 : fsListOf (mergeBody tol norm p1 p2 s1 verts1
          ((volAt σ p2).surfs.getD i2 0) ms
          (iterState s1 ((volAt σ p2).surfs.getD i2 0) σ)).st = fsListOf σ := by
        rw [mergeBody_fsList, iterState_fsList]
      have hent2 : ∀ e ∈ (mergeBody tol norm p1 p2 s1 verts1
          ((volAt σ p2).surfs.getD i2 0) ms
          (iterState s1 ((volAt σ p2).surfs.getD i2 0) σ)).st.senseTag,
          e ∈ σ.senseTag ∨ senseOK (fsListOf σ) e.2 := by
        intro e he
        rcases mergeBody_sense_entries tol norm p1 p2 s1 verts1
            ((volAt σ p2).surfs.getD i2 0) ms
            (iterState s1 ((volAt σ p2).surfs.getD i2 0) σ) hp hit e he with h | h
        · rw [iterState_senseTag] at h
          exact Or.inl h
        · rw [iterState_fsList] at h
          exact Or.inr h
      split
      next hbrk => exact ⟨hfs2, hent2⟩
      next hbrk =>
        obtain ⟨ih1, ih2⟩ := ih (i2 + 1)
          (mergeBody tol norm p1 p2 s1 verts1 ((volAt σ p2).surfs.getD i2 0) ms
            (iterState s1 ((volAt σ p2).surfs.getD i2 0) σ)).ms
          (mergeBody tol norm p1 p2 s1 verts1 ((volAt σ p2).surfs.getD i2 0) ms
            (iterState s1 ((volAt σ p2).surfs.getD i2 0) σ)).st
          (by rw [vols_length_eq_of_fsList hfs2]; exact hlt)
        refine ⟨by rw [ih1, hfs2], ?_⟩
        intro e he
        rcases ih2 e he with h | h
        · exact hent2 e h
        · rw [hfs2] at h
          exact Or.inr h
    next h2 => exact ⟨rfl, fun e he => Or.inl he⟩

theorem outerLoop_sense (tol norm : ℤ) (p1 p2 : Nat) (hp : p2 = p1 + 1) :
    ∀ fuel i1 ms σ, p2 < σ.vols.length →
      fsListOf (outerLoop tol norm p1 p2 fuel i1 ms σ).1 = fsListOf σ ∧
      (∀ e ∈ (outerLoop tol norm p1 p2 fuel i1 ms σ).1.senseTag,
        e ∈ σ.senseTag ∨ senseOK (fsListOf σ) e.2) := by
  intro fuel
  induction fuel with
  | zero =>
    intro i1 ms σ hlt
    exact ⟨rfl, fun e he => Or.inl he⟩
  | succ fuel ih =>
    intro i1 ms σ hlt
    simp only [outerLoop]
    split
    next h1 =>
      have hin : p2 < (initCurveEntry σ ((volAt σ p1).surfs.getD i1 0)).vols.length := by
        rw [initCurveEntry_vols]
        exact hlt
      obtain ⟨in1, in2⟩ := innerLoop_sense tol norm p1 p2
        ((volAt σ p1).surfs.getD i1 0)
        (listCoords σ ((volAt σ p1).surfs.getD i1 0)) hp
        ((volAt (initCurveEntry σ ((volAt σ p1).surfs.getD i1 0)) p2).surfs.length + 1)
        0 ms (initCurveEntry σ ((volAt σ p1).surfs.getD i1 0)) hin
      have hfs2 : fsListOf (innerLoop tol norm p1 p2
          ((volAt σ p1).surfs.getD i1 0)
          (listCoords σ ((volAt σ p1).surfs.getD i1 0))
          ((volAt (initCurveEntry σ ((volAt σ p1).surfs.getD i1 0)) p2).surfs.length + 1)
          0 ms (initCurveEntry σ ((volAt σ p1).surfs.getD i1 0))).1 = fsListOf σ := by
        rw [in1, initCurveEntry_fsList]
      obtain ⟨o1, o2⟩ := ih (i1 + 1) _ _
        (by rw [vols_length_eq_of_fsList hfs2]; exact hlt)
      refine ⟨by rw [o1, hfs2], ?_⟩
      intro e he
      rcases o2 e he with h | h
      · rcases in2 e h with h2 | h2
        · rw [initCurveEntry_senseTag] at h2
          exact Or.inl h2
        · rw [initCurveEntry_fsList] at h2
          exact Or.inr h2
      · rw [hfs2] at h
        exact Or.inr h
    next h1 => exact ⟨rfl, fun e he => Or.inl he⟩

theorem compareSurfs_sense (tol norm : ℤ) (p1 p2 : Nat) (σ : GeomState)
    (hp : p2 = p1 + 1) (hlt : p2 < σ.vols.length) :
    fsListOf (compareSurfs tol norm p1 p2 σ) = fsListOf σ ∧
    (∀ e ∈ (compareSurfs tol norm p1 p2 σ).senseTag,
      e ∈ σ.senseTag ∨ senseOK (fsListOf σ) e.2) := by
  obtain ⟨h1, h2⟩ := outerLoop_sense tol norm p1 p2 hp
    ((volAt σ p1).surfs.length + 1) 0 [] σ hlt
  constructor
  · simp only [compareSurfs]
    rw [fsListOf_modifyVol_extend, fsListOf_modifyVol_extend, h1]
  · intro e he
    simp only [compareSurfs, senseTag_modifyVol] at he
    exact h2 e he

theorem passLoop_sense (tol norm : ℤ) (nLevels : Nat) :
    ∀ fuel i σ, σ.vols.length = nLevels + 1 →
      fsListOf (passLoop tol norm nLevels fuel i σ) = fsListOf σ ∧
      (∀ e ∈ (passLoop tol norm nLevels fuel i σ).senseTag,
        e ∈ σ.senseTag ∨ senseOK (fsListOf σ) e.2) := by
  intro fuel
  induction fuel with
  | zero =>
    intro i σ hL
    exact ⟨rfl, fun e he => Or.inl he⟩
  | succ fuel ih =>
    intro i σ hL
    simp only [passLoop]
    split
    next hi =>
      by_cases hin : i = nLevels
      · rw [if_pos hin]
        exact ih (i + 1) σ hL
      · rw [if_neg hin]
        have hlt : i + 1 < σ.vols.length := by omega
        obtain ⟨c1, c2⟩ := compareSurfs_sense tol norm i (i + 1) σ rfl hlt
        obtain ⟨q1, q2⟩ := ih (i + 1) (compareSurfs tol norm i (i + 1) σ)
          (by rw [vols_length_eq_of_fsList c1]; exact hL)
        refine ⟨by rw [q1, c1], ?_⟩
        intro e he
        rcases q2 e he with h | h
        · rcases c2 e h with h2 | h2
          · exact Or.inl h2
          · exact Or.inr h2
        · rw [c1] at h
          exact Or.inr h
    next hi => exact ⟨rfl, fun e he => Or.inl he⟩

theorem lookup_mem_of_eq_some {α β : Type} [DecidableEq α] {l : List (α × β)}
    {a : α} {b : β} (h : List.lookup a l = some b) : (a, b) ∈ l := by
  induction l with
  | nil => simp [List.lookup] at h
  | cons hd tl ih =>
    obtain ⟨k, v⟩ := hd
    by_cases hak : a = k
    · subst hak
      simp only [List.lookup, beq_self_eq_true] at h
      cases h
      exact List.mem_cons_self _ _
    · have hne : (a == k) = false := by simp [hak]
      simp only [List.lookup, hne] at h
      exact List.mem_cons_of_mem _ (ih h)

/-- What one `postSurf` call does to the sense table: leaves it unchanged
(value already present), or prepends the `(own file set, 0)` entry for its
surface when that surface had no sense tag. -/
theorem senseTag_addSurfTris (σ : GeomState) (s : EH) (l : List EH) :
    (addSurfTris σ s l).senseTag = σ.senseTag := rfl

theorem senseTag_tagVal (σ : GeomState) (s : EH) (v : ℤ) :
    (tagVal σ s v).senseTag = σ.senseTag := rfl

theorem postSurf_senseTag_cases (volfs : EH) (σ : GeomState) (s : EH) :
    ((postSurf volfs σ s).senseTag = σ.senseTag ∧
      ∃ pr0, List.lookup s σ.senseTag = some pr0) ∨
    ((postSurf volfs σ s).senseTag = (s, (volfs, 0)) :: σ.senseTag ∧
      List.lookup s σ.senseTag = none) := by
  cases hval : List.lookup s σ.valTag with
  | some v0 =>
    cases hsense : List.lookup s σ.senseTag with
    | some pr0 =>
      left
      refine ⟨?_, pr0, rfl⟩
      simp only [postSurf, hval, hsense]
    | none =>
      right
      refine ⟨?_, rfl⟩
      simp only [postSurf, hval, hsense, tagSense]
  | none =>
    cases hsense : List.lookup s σ.senseTag with
    | some pr0 =>
      left
      refine ⟨?_, pr0, rfl⟩
      simp only [postSurf, hval, senseTag_addSurfTris, senseTag_tagVal, hsense]
    | none =>
      right
      refine ⟨?_, rfl⟩
      simp only [postSurf, hval, senseTag_addSurfTris, senseTag_tagVal, hsense,
        tagSense]

theorem postSurf_vols (volfs : EH) (σ : GeomState) (s : EH) :
    (postSurf volfs σ s).vols = σ.vols := by
  simp only [postSurf]
  split <;> split <;> rfl

theorem postSurf_lookup_preserved (volfs : EH) (σ : GeomState) (s s2 : EH)
    (pr : EH × EH) (h : List.lookup s2 σ.senseTag = some pr) :
    List.lookup s2 (postSurf volfs σ s).senseTag = some pr := by
  rcases postSurf_senseTag_cases volfs σ s with ⟨hc, -⟩ | ⟨hc, hnone⟩
  · rw [hc]
    exact h
  · rw [hc]
    by_cases hss : s2 = s
    · subst hss
      rw [h] at hnone
      exact absurd hnone (by simp)
    · have hne : (s2 == s) = false := by simp [hss]
      simp only [List.lookup, hne]
      exact h

theorem postSurf_self (volfs : EH) (σ : GeomState) (s : EH) :
    ∃ pr, List.lookup s (postSurf volfs σ s).senseTag = some pr := by
  rcases postSurf_senseTag_cases volfs σ s with ⟨hc, pr0, h0⟩ | ⟨hc, -⟩
  · exact ⟨pr0, by rw [hc]; exact h0⟩
  · refine ⟨(volfs, 0), ?_⟩
    rw [hc]
    exact lookup_cons_self s (volfs, 0) σ.senseTag

theorem postSurf_entries (volfs : EH) (σ : GeomState) (s : EH) :
    ∀ e ∈ (postSurf volfs σ s).senseTag,
      e ∈ σ.senseTag ∨ e = (s, (volfs, 0)) := by
  intro e he
  rcases postSurf_senseTag_cases volfs σ s with ⟨hc, -⟩ | ⟨hc, -⟩
  · rw [hc] at he
    exact Or.inl he
  · rw [hc] at he
    rcases List.mem_cons.mp he with rfl | h
    · exact Or.inr rfl
    · exact Or.inl h

theorem postFoldSurfs_vols (volfs : EH) :
    ∀ (l : List EH) (σ : GeomState),
      (l.foldl (fun a s => postSurf volfs a s) σ).vols = σ.vols := by
  intro l
  induction l with
  | nil => intro σ; rfl
  | cons s rest ih =>
    intro σ
    rw [List.foldl_cons, ih, postSurf_vols]

theorem postFoldSurfs_lookup_preserved (volfs : EH) :
    ∀ (l : List EH) (σ : GeomState) (s2 : EH) (pr : EH × EH),
      List.lookup s2 σ.senseTag = some pr →
      List.lookup s2 (l.foldl (fun a s => postSurf volfs a s) σ).senseTag
        = some pr := by
  intro l
  induction l with
  | nil => intro σ s2 pr h; exact h
  | cons s rest ih =>
    intro σ s2 pr h
    rw [List.foldl_cons]
    exact ih _ s2 pr (postSurf_lookup_preserved volfs σ s s2 pr h)

theorem postFoldSurfs_self (volfs : EH) :
    ∀ (l : List EH) (σ : GeomState) (s : EH), s ∈ l →
      ∃ pr, List.lookup s (l.foldl (fun a s => postSurf volfs a s) σ).senseTag
        = some pr := by
  intro l
  induction l with
  | nil => intro σ s h; exact absurd h (List.not_mem_nil s)
  | cons s0 rest ih =>
    intro σ s h
    rw [List.foldl_cons]
    rcases List.mem_cons.mp h with rfl | hrest
    · obtain ⟨pr, hpr⟩ := postSurf_self volfs σ s
      exact ⟨pr, postFoldSurfs_lookup_preserved volfs rest _ s pr hpr⟩
    · exact ih _ s hrest

theorem postFoldSurfs_entries (volfs : EH) :
    ∀ (l : List EH) (σ : GeomState),
      ∀ e ∈ (l.foldl (fun a s => postSurf volfs a s) σ).senseTag,
        e ∈ σ.senseTag ∨ ∃ s ∈ l, e = (s, (volfs, 0)) := by
  intro l
  induction l with
  | nil => intro σ e he; exact Or.inl he
  | cons s0 rest ih =>
    intro σ e he
    rw [List.foldl_cons] at he
    rcases ih _ e he with h | ⟨s, hs, rfl⟩
    · rcases postSurf_entries volfs σ s0 e h with h2 | rfl
      · exact Or.inl h2
      · exact Or.inr ⟨s0, List.mem_cons_self _ _, rfl⟩
    · exact Or.inr ⟨s, List.mem_cons_of_mem _ hs, rfl⟩

theorem postPassFold_vols :
    ∀ (vs : List Vol) (σ : GeomState),
      (vs.foldl (fun acc v => v.surfs.foldl (fun a s => postSurf v.fs a s) acc) σ).vols
        = σ.vols := by
  intro vs
  induction vs with
  | nil => intro σ; rfl
  | cons v rest ih =>
    intro σ
    rw [List.foldl_cons, ih, postFoldSurfs_vols]

theorem postPassFold_lookup_preserved :
    ∀ (vs : List Vol) (σ : GeomState) (s2 : EH) (pr : EH × EH),
      List.lookup s2 σ.senseTag = some pr →
      List.lookup s2 (vs.foldl
        (fun acc v => v.surfs.foldl (fun a s => postSurf v.fs a s) acc) σ).senseTag
        = some pr := by
  intro vs
  induction vs with
  | nil => intro σ s2 pr h; exact h
  | cons v rest ih =>
    intro σ s2 pr h
    rw [List.foldl_cons]
    exact ih _ s2 pr (postFoldSurfs_lookup_preserved v.fs v.surfs σ s2 pr h)

theorem postPassFold_self :
    ∀ (vs : List Vol) (σ : GeomState) (v : Vol) (s : EH), v ∈ vs → s ∈ v.surfs →
      ∃ pr, List.lookup s (vs.foldl
        (fun acc v => v.surfs.foldl (fun a s => postSurf v.fs a s) acc) σ).senseTag
        = some pr := by
  intro vs
  induction vs with
  | nil => intro σ v s h; exact absurd h (List.not_mem_nil v)
  | cons v0 rest ih =>
    intro σ v s hv hs
    rw [List.foldl_cons]
    rcases List.mem_cons.mp hv with rfl | hrest
    · obtain ⟨pr, hpr⟩ := postFoldSurfs_self v.fs v.surfs σ s hs
      exact ⟨pr, postPassFold_lookup_preserved rest _ s pr hpr⟩
    · exact ih _ v s hrest hs

theorem postPassFold_entries :
    ∀ (vs : List Vol) (σ : GeomState),
      ∀ e ∈ (vs.foldl
          (fun acc v => v.surfs.foldl (fun a s => postSurf v.fs a s) acc) σ).senseTag,
        e ∈ σ.senseTag ∨ ∃ v ∈ vs, ∃ s ∈ v.surfs, e = (s, (v.fs, 0)) := by
  intro vs
  induction vs with
  | nil => intro σ e he; exact Or.inl he
  | cons v0 rest ih =>
    intro σ e he
    rw [List.foldl_cons] at he
    rcases ih _ e he with h | ⟨v, hv, s, hs, rfl⟩
    · rcases postFoldSurfs_entries v0.fs v0.surfs σ e h with h2 | ⟨s, hs, rfl⟩
      · exact Or.inl h2
      · exact Or.inr ⟨v0, List.mem_cons_self _ _, s, hs, rfl⟩
    · exact Or.inr ⟨v, List.mem_cons_of_mem _ hv, s, hs, rfl⟩

theorem volAt_fs_of_getElem (σ : GeomState) (p : Nat) (h : p < σ.vols.length) :
    (fsListOf σ)[p]? = some (volAt σ p).fs := fsList_volAt σ p h

/-- **C1.** After `__imprint_merge`, every surface listed in any volume's
`surfs_EH` list carries a sense tag, and the tag has one of the two shapes the
code assigns: either the file sets of two consecutive volumes in ascending
band-index order (shared patches built by `__compare_surfs`, forward = the
lower-index volume), or `(forward = the file set of a volume whose list holds
the patch, backward = 0)` from the post-pass for patches never matched. -/
theorem C1_sense_tags (tol norm : ℤ) (nLevels : Nat) (σ0 : GeomState)
    (hempty : σ0.senseTag = [])
    (hLen : σ0.vols.length = nLevels + 1)
    (hSorted : ∀ i, i + 1 < σ0.vols.length →
      (volAt σ0 i).idx < (volAt σ0 (i + 1)).idx) :
    ∀ vol ∈ (imprintMerge tol norm nLevels σ0).vols,
      ∀ s ∈ vol.surfs,
        ∃ pr, List.lookup s (imprintMerge tol norm nLevels σ0).senseTag = some pr ∧
          ((∃ i, (fsListOf σ0)[i]? = some pr.1 ∧ (fsListOf σ0)[i + 1]? = some pr.2 ∧
              (volAt σ0 i).idx < (volAt σ0 (i + 1)).idx) ∨
            (pr.2 = 0 ∧ ∃ vol2 ∈ (imprintMerge tol norm nLevels σ0).vols,
              s ∈ vol2.surfs ∧ pr.1 = vol2.fs)) := by
  intro vol hvol s hs
  obtain ⟨hfsp, hentp⟩ := passLoop_sense tol norm nLevels σ0.vols.length 0 σ0 hLen
  have hvolsfinal : (imprintMerge tol norm nLevels σ0).vols =
      (passLoop tol norm nLevels σ0.vols.length 0 σ0).vols := by
    rw [imprintMerge, postPass, postPassFold_vols]
  have hvolp : vol ∈ (passLoop tol norm nLevels σ0.vols.length 0 σ0).vols := by
    rw [← hvolsfinal]
    exact hvol
  obtain ⟨pr, hpr⟩ := postPassFold_self
    (passLoop tol norm nLevels σ0.vols.length 0 σ0).vols
    (passLoop tol norm nLevels σ0.vols.length 0 σ0) vol s hvolp hs
  refine ⟨pr, hpr, ?_⟩
  have hmem : (s, pr) ∈ (imprintMerge tol norm nLevels σ0).senseTag :=
    lookup_mem_of_eq_some hpr
  rcases postPassFold_entries
      (passLoop tol norm nLevels σ0.vols.length 0 σ0).vols
      (passLoop tol norm nLevels σ0.vols.length 0 σ0) (s, pr) hmem with
    h | ⟨v, hv, s2, hs2, heq⟩
  · rcases hentp (s, pr) h with h2 | h2
    · rw [hempty] at h2
      exact absurd h2 (List.not_mem_nil _)
    · left
      obtain ⟨i, hi1, hi2⟩ := h2
      have hilt : i + 1 < σ0.vols.length := by
        by_contra hc
        rw [List.getElem?_eq_none (by rw [fsList_length]; omega)] at hi2
        exact absurd hi2 (by simp)
      exact ⟨i, hi1, hi2, hSorted i hilt⟩
  · right
    rw [Prod.mk.injEq] at heq
    obtain ⟨h1, h2⟩ := heq
    refine ⟨?_, v, ?_, ?_, ?_⟩
    · rw [h2]
    · rw [hvolsfinal]
      exact hv
    · rw [h1]
      exact hs2
    · rw [h2]

/-- Witness for C1 at `mergeScenario`: the shared surface 400 listed by
volume 0. -/
theorem C1_sense_tags_witness :
    ∃ pr, List.lookup 400 (imprintMerge 1 1 2 mergeScenario).senseTag = some pr ∧
      ((∃ i, (fsListOf mergeScenario)[i]? = some pr.1 ∧
          (fsListOf mergeScenario)[i + 1]? = some pr.2 ∧
          (volAt mergeScenario i).idx < (volAt mergeScenario (i + 1)).idx) ∨
        (pr.2 = 0 ∧ ∃ vol2 ∈ (imprintMerge 1 1 2 mergeScenario).vols,
          400 ∈ vol2.surfs ∧ pr.1 = vol2.fs)) :=
  C1_sense_tags 1 1 2 mergeScenario rfl (by decide)
    (by
      intro i hi
      have hb : i < 2 := by
        have : i + 1 < 3 := by simpa [mergeScenario] using hi
        omega
      interval_cases i <;> decide)
    ⟨0, 301, none, some 1, [400]⟩ (by decide) 400 (by decide)

/-! ### C3 (amended): stitching is complete when the skin is non-empty -/

theorem lookup_eq_some_of_mem_keys {α β : Type} [DecidableEq α]
    {l : List (α × β)} {a : α} (h : a ∈ l.map (fun p => p.1)) :
    ∃ b, List.lookup a l = some b := by
  induction l with
  | nil => simp at h
  | cons hd tl ih =>
    obtain ⟨k, v⟩ := hd
    by_cases hak : a = k
    · subst hak
      exact ⟨v, lookup_cons_self a v tl⟩
    · have hne : (a == k) = false := by simp [hak]
      simp only [List.map_cons, List.mem_cons] at h
      rcases h with h | h
      · exact absurd h hak
      · obtain ⟨b, hb⟩ := ih h
        refine ⟨b, ?_⟩
        simp only [List.lookup, hne]
        exact hb

theorem getMatchesGo_sBeh_values (tol : ℤ) (vertsB : List (Pt × EH))
    (l : List (EH × Pt)) (acc : MatchOut)
    (hacc : ∀ b ∈ acc.sBeh, b ∈ vertsB.map (fun p => p.2)) :
    ∀ b ∈ (getMatchesGo tol vertsB l acc).sBeh, b ∈ vertsB.map (fun p => p.2) := by
  induction l generalizing acc with
  | nil => simpa [getMatchesGo] using hacc
  | cons hd rest ih =>
    obtain ⟨ehA, coord⟩ := hd
    simp only [getMatchesGo]
    split
    next hexact =>
      refine ih _ ?_
      intro b hb
      rcases List.mem_append.mp hb with h | h
      · exact hacc b h
      · simp only [List.mem_singleton] at h
        subst h
        obtain ⟨v, hv⟩ := lookup_eq_some_of_mem_keys hexact
        rw [hv]
        exact List.mem_map.mpr ⟨(coord, v), lookup_mem_of_eq_some hv, rfl⟩
    next hexact =>
      split
      next heq => exact ih _ hacc
      next index restIdx heq =>
        refine ih _ ?_
        intro b hb
        rcases List.mem_append.mp hb with h | h
        · exact hacc b h
        · simp only [List.mem_singleton] at h
          subst h
          have hidx : index ∈ indexSet tol coord (vertsB.map (fun p => p.1)) := by
            rw [heq]
            exact List.mem_cons_self _ _
          rw [mem_indexSet] at hidx
          have hmemb : (vertsB.map (fun p => p.1)).getD index pt0 ∈
              vertsB.map (fun p => p.1) := by
            rw [List.getD_eq_getElem _ _ hidx.1]
            exact List.getElem_mem hidx.1
          obtain ⟨v, hv⟩ := lookup_eq_some_of_mem_keys hmemb
          rw [hv]
          exact List.mem_map.mpr ⟨(_, v), lookup_mem_of_eq_some hv, rfl⟩

theorem getMatchesGo_mdict_covers (tol : ℤ) (vertsB : List (Pt × EH))
    (l : List (EH × Pt)) (acc : MatchOut) (K : List EH)
    (hl : ∀ p ∈ l, p.1 ∈ K)
    (hacc : ∀ b ∈ acc.sBeh, ∃ a, List.lookup b acc.mdict = some a ∧ a ∈ K) :
    ∀ b ∈ (getMatchesGo tol vertsB l acc).sBeh,
      ∃ a, List.lookup b (getMatchesGo tol vertsB l acc).mdict = some a ∧ a ∈ K := by
  induction l generalizing acc with
  | nil => simpa [getMatchesGo] using hacc
  | cons hd rest ih =>
    obtain ⟨ehA, coord⟩ := hd
    have hKA : ehA ∈ K := hl (ehA, coord) (List.mem_cons_self _ _)
    have hlrest : ∀ p ∈ rest, p.1 ∈ K :=
      fun p hp => hl p (List.mem_cons_of_mem _ hp)
    simp only [getMatchesGo]
    split
    next hexact =>
      refine ih _ hlrest ?_
      intro b hb
      rcases List.mem_append.mp hb with h | h
      · obtain ⟨a, ha1, ha2⟩ := hacc b h
        by_cases hbe : b = (List.lookup coord vertsB).getD 0
        · subst hbe
          exact ⟨ehA, lookup_cons_self _ _ _, hKA⟩
        · refine ⟨a, ?_, ha2⟩
          have hne : (b == (List.lookup coord vertsB).getD 0) = false :=
            beq_eq_false_iff_ne.mpr hbe
          simp only [List.lookup, hne]
          exact ha1
      · simp only [List.mem_singleton] at h
        subst h
        exact ⟨ehA, lookup_cons_self _ _ _, hKA⟩
    next hexact =>
      split
      next heq => exact ih _ hlrest hacc
      next index restIdx heq =>
        refine ih _ hlrest ?_
        intro b hb
        rcases List.mem_append.mp hb with h | h
        · obtain ⟨a, ha1, ha2⟩ := hacc b h
          by_cases hbe : b = (List.lookup ((vertsB.map (fun p => p.1)).getD index pt0)
              vertsB).getD 0
          · subst hbe
            exact ⟨ehA, lookup_cons_self _ _ _, hKA⟩
          · refine ⟨a, ?_, ha2⟩
            have hne : (b == (List.lookup ((vertsB.map (fun p => p.1)).getD index pt0)
                vertsB).getD 0) = false := beq_eq_false_iff_ne.mpr hbe
            simp only [List.lookup, hne]
            exact ha1
        · simp only [List.mem_singleton] at h
          subst h
          exact ⟨ehA, lookup_cons_self _ _ _, hKA⟩

theorem replTri_not_mem (v r : EH) (c : TriConn) (hvr : r ≠ v) :
    v ∉ triVerts (replTri v r c) := by
  intro hmem
  simp only [replTri, triVerts, List.mem_cons, List.not_mem_nil, or_false] at hmem
  rcases hmem with h | h | h
  all_goals
    split at h
    next hcv => exact hvr h.symm
    next hcv => exact hcv h.symm

theorem stitchOne_removes (tris : Tris) (v r : EH) (hvr : r ≠ v) :
    ∀ t ∈ stitchOne tris v r, v ∉ triVerts t.2 := by
  intro t ht
  rw [stitchOne, List.mem_map] at ht
  obtain ⟨t0, ht0, heq⟩ := ht
  subst heq
  by_cases hc : v ∈ triVerts t0.2
  · rw [if_pos hc]
    exact replTri_not_mem v r t0.2 hvr
  · rw [if_neg hc]
    exact hc

theorem stitchOne_preserves_absent (tris : Tris) (v r w : EH) (hw : w ≠ r)
    (habs : ∀ t ∈ tris, w ∉ triVerts t.2) :
    ∀ t ∈ stitchOne tris v r, w ∉ triVerts t.2 := by
  intro t ht
  rw [stitchOne, List.mem_map] at ht
  obtain ⟨t0, ht0, heq⟩ := ht
  subst heq
  by_cases hc : v ∈ triVerts t0.2
  · rw [if_pos hc]
    intro hmem
    have habs0 := habs t0 ht0
    simp only [triVerts, List.mem_cons, List.not_mem_nil, or_false] at habs0
    push_neg at habs0
    simp only [replTri, triVerts, List.mem_cons, List.not_mem_nil, or_false] at hmem
    rcases hmem with h | h | h
    · split at h
      next => exact hw h
      next => exact habs0.1 h
    · split at h
      next => exact hw h
      next => exact habs0.2.1 h
    · split at h
      next => exact hw h
      next => exact habs0.2.2 h
  · rw [if_neg hc]
    exact habs t0 ht0

theorem stitchAll_preserves_absent (md : List (EH × EH)) (w : EH) :
    ∀ (bs : List EH) (tris : Tris),
      (∀ b ∈ bs, (List.lookup b md).getD 0 ≠ w) →
      (∀ t ∈ tris, w ∉ triVerts t.2) →
      ∀ t ∈ stitchAll md tris bs, w ∉ triVerts t.2 := by
  intro bs
  induction bs with
  | nil => intro tris hrep habs t ht; exact habs t ht
  | cons v rest ih =>
    intro tris hrep habs t ht
    simp only [stitchAll] at ht
    refine ih _ (fun b hb => hrep b (List.mem_cons_of_mem _ hb)) ?_ t ht
    exact stitchOne_preserves_absent tris v _ w
      (fun hcon => hrep v (List.mem_cons_self _ _) hcon.symm) habs

/-- After the stitching loop, no triangle references any matched B vertex,
provided no replacement vertex is itself a matched B vertex. -/
theorem stitchAll_clean (md : List (EH × EH)) :
    ∀ (bs : List EH) (tris : Tris),
      (∀ b ∈ bs, (List.lookup b md).getD 0 ∉ bs) →
      ∀ t ∈ stitchAll md tris bs, ∀ b ∈ bs, b ∉ triVerts t.2 := by
  intro bs
  induction bs with
  | nil => intro tris hrep t ht b hb; exact absurd hb (List.not_mem_nil b)
  | cons v rest ih =>
    intro tris hrep t ht b hb
    simp only [stitchAll] at ht
    rcases List.mem_cons.mp hb with rfl | hbr
    · refine stitchAll_preserves_absent md b rest _ ?_ ?_ t ht
      · intro b2 hb2 hcon
        have := hrep b2 (List.mem_cons_of_mem _ hb2)
        rw [hcon] at this
        exact this (List.mem_cons_self _ _)
      · refine stitchOne_removes tris b _ ?_
        intro hcon
        apply hrep b (List.mem_cons_self _ _)
        rw [hcon]
        exact List.mem_cons_self _ _
    · exact ih _
        (fun b2 hb2 hcon => hrep b2 (List.mem_cons_of_mem _ hb2)
          (List.mem_cons_of_mem _ hcon)) t ht b hbr

theorem tris_modifyVol (σ : GeomState) (p : Nat) (f : Vol → Vol) :
    (modifyVol σ p f).tris = σ.tris := rfl

theorem tris_tagStep (norm : ℤ) (p1 p2 : Nat) (surf : EH) (σ : GeomState) :
    (tagStep norm p1 p2 surf σ).tris = σ.tris := rfl

theorem tris_removalStep (s1 s2 : EH) (mo : MatchOut) (t1 t2 : List EH)
    (σ : GeomState) :
    (removalStep s1 s2 mo t1 t2 σ).tris =
      σ.tris.filter (fun t => decide (t.1 ∉ t2)) := rfl

theorem tris_newSurfStep (surf : EH) (t1 : List EH) (mo : MatchOut)
    (σ : GeomState) : (newSurfStep surf t1 mo σ).tris = σ.tris := rfl

theorem tris_curveStep_nonempty (s1 s2 surf : EH) (mo : MatchOut)
    (t1 : List EH) (σ : GeomState) (h : skinVertsOf σ.tris t1 ≠ []) :
    (curveStep s1 s2 surf mo t1 σ).tris = stitchAll mo.mdict σ.tris mo.sBeh := by
  simp only [curveStep]
  rw [if_neg h]
  rfl

/-- **C3 (amended).** When matches are found **and** the shared patch's skin is
non-empty, connectivity stitching is complete: after the merge body, no
triangle left in the store references any matched B-vertex (they were all
rewritten to the A partners or deleted with `tris2`).  The disjointness
hypothesis says A-side and B-side vertex handles are different entities, as
they always are for meshes loaded from two different band files. -/
theorem C3_stitching_when_skin_nonempty (tol norm : ℤ) (p1 p2 : Nat) (s1 : EH)
    (verts1 : List (EH × Pt)) (s2 : EH) (ms : List EH) (σ : GeomState)
    (hA : (getMatches tol verts1 (listCoordsInv σ s2)).sAeh ≠ [])
    (hskin : skinVertsOf σ.tris (getSurfTriangles σ.tris
      (getMatches tol verts1 (listCoordsInv σ s2)).sAeh) ≠ [])
    (hdisj : ∀ pa ∈ verts1, ∀ pb ∈ listCoordsInv σ s2, pa.1 ≠ pb.2) :
    ∀ t ∈ (mergeBody tol norm p1 p2 s1 verts1 s2 ms σ).st.tris,
      ∀ b ∈ (getMatches tol verts1 (listCoordsInv σ s2)).sBeh,
        b ∉ triVerts t.2 := by
  have hskinA : skinVertsOf (newSurfStep σ.next
      (getSurfTriangles σ.tris (getMatches tol verts1 (listCoordsInv σ s2)).sAeh)
      (getMatches tol verts1 (listCoordsInv σ s2)) σ).tris
      (getSurfTriangles σ.tris (getMatches tol verts1 (listCoordsInv σ s2)).sAeh)
      ≠ [] := by
    rw [tris_newSurfStep]
    exact hskin
  have hEq : (mergeBody tol norm p1 p2 s1 verts1 s2 ms σ).st.tris =
      (stitchAll (getMatches tol verts1 (listCoordsInv σ s2)).mdict σ.tris
        (getMatches tol verts1 (listCoordsInv σ s2)).sBeh).filter
        (fun t => decide (t.1 ∉ getSurfTriangles σ.tris
          (getMatches tol verts1 (listCoordsInv σ s2)).sBeh)) := by
    simp only [mergeBody]
    rw [if_neg hA]
    split <;> split <;>
      simp only [tris_modifyVol, tris_tagStep, tris_removalStep,
        tris_curveStep_nonempty _ _ _ _ _ _ hskinA, tris_newSurfStep]
  have hrep : ∀ b ∈ (getMatches tol verts1 (listCoordsInv σ s2)).sBeh,
      (List.lookup b (getMatches tol verts1 (listCoordsInv σ s2)).mdict).getD 0
        ∉ (getMatches tol verts1 (listCoordsInv σ s2)).sBeh := by
    intro b hb hcon
    obtain ⟨a, ha1, ha2⟩ := getMatchesGo_mdict_covers tol
      (listCoordsInv σ s2) verts1 ⟨[], [], [], [], []⟩
      (verts1.map (fun p => p.1))
      (fun p hp => List.mem_map.mpr ⟨p, hp, rfl⟩)
      (fun b hb => absurd hb (List.not_mem_nil b)) b hb
    have ha1b : List.lookup b (getMatches tol verts1 (listCoordsInv σ s2)).mdict
        = some a := ha1
    rw [ha1b] at hcon
    have haB : a ∈ (listCoordsInv σ s2).map (fun p => p.2) :=
      getMatchesGo_sBeh_values tol (listCoordsInv σ s2) verts1 _
        (fun b hb => absurd hb (List.not_mem_nil b)) a hcon
    obtain ⟨pa, hpa, hpa2⟩ := List.mem_map.mp ha2
    obtain ⟨pb, hpb, hpb2⟩ := List.mem_map.mp haB
    exact hdisj pa hpa pb hpb (by rw [hpa2, hpb2])
  intro t ht b hb
  rw [hEq, List.mem_filter] at ht
  exact stitchAll_clean (getMatches tol verts1 (listCoordsInv σ s2)).mdict
    (getMatches tol verts1 (listCoordsInv σ s2)).sBeh σ.tris hrep t ht.1 b hb

/-- Witness for the amended C3 at `skipScenario`'s first pair: triangle 112
(outside the shared patch) references no matched B-vertex afterwards. -/
theorem C3_stitching_when_skin_nonempty_witness :
    (11 : EH) ∉ triVerts ((112 : EH), ((14 : EH), (15 : EH), (16 : EH))).2 :=
  C3_stitching_when_skin_nonempty 1 1 0 1 201 (listCoords skipScenario 201) 202
    [] skipScenario (by decide) (by decide) (by decide)
    (112, (14, 15, 16)) (by decide) 11 (by decide)

/-! ### C5: global-id assignment by `__make_family` -/

/-- The `(key, id)` assignments made by a run of sequential `GLOBAL_ID`
tagging over the keys of `l` with the running counter starting after `n`,
latest assignment first — matching the prepend-overwrite tag tables. -/
def seqAssign : List EH → Nat → List (EH × Nat)
  | [], _ => []
  | s :: rest, n => seqAssign rest (n + 1) ++ [(s, n + 1)]

/-- Every surface visit of the volume loop, in visit order (vol.py 810). -/
def surfVisits : List Vol → List EH
  | [] => []
  | v :: rest => v.surfs ++ surfVisits rest

theorem famVolTag_globalId (v : Vol) (vid : Nat) (f : Family) :
    (famVolTag v vid f).globalId = (v.fs, vid + 1) :: f.globalId := rfl

theorem lookup_append_some {α β : Type} [DecidableEq α] {a : α}
    {l1 : List (α × β)} {b : β} (l2 : List (α × β))
    (h : List.lookup a l1 = some b) :
    List.lookup a (l1 ++ l2) = some b := by
  induction l1 with
  | nil => exact Option.noConfusion h
  | cons hd tl ih =>
    obtain ⟨k, v⟩ := hd
    cases hak : (a == k) with
    | true =>
      simp only [List.lookup, hak] at h
      simp [List.lookup, hak, h]
    | false =>
      simp only [List.lookup, hak] at h
      simp only [List.cons_append, List.lookup, hak]
      exact ih h

theorem lookup_append_none {α β : Type} [DecidableEq α] {a : α}
    {l1 : List (α × β)} (l2 : List (α × β))
    (h : List.lookup a l1 = none) :
    List.lookup a (l1 ++ l2) = List.lookup a l2 := by
  induction l1 with
  | nil => rfl
  | cons hd tl ih =>
    obtain ⟨k, v⟩ := hd
    cases hak : (a == k) with
    | true =>
      simp only [List.lookup, hak] at h
      exact Option.noConfusion h
    | false =>
      simp only [List.lookup, hak] at h
      simp only [List.cons_append, List.lookup, hak]
      exact ih h

theorem seqAssign_bounds :
    ∀ (l : List EH) (n : Nat) (s : EH) (m : Nat),
      (s, m) ∈ seqAssign l n → n + 1 ≤ m ∧ m ≤ n + l.length := by
  intro l
  induction l with
  | nil => intro n s m h; simp [seqAssign] at h
  | cons s0 rest ih =>
    intro n s m h
    simp only [seqAssign, List.mem_append, List.mem_singleton] at h
    rcases h with h | h
    · obtain ⟨h1, h2⟩ := ih (n + 1) s m h
      refine ⟨by omega, ?_⟩
      simp only [List.length_cons]
      omega
    · have h2 : m = n + 1 := congrArg Prod.snd h
      refine ⟨by omega, ?_⟩
      simp only [List.length_cons]
      omega

theorem seqAssign_lookup_none :
    ∀ (l : List EH) (n : Nat) (s : EH), s ∉ l →
      List.lookup s (seqAssign l n) = none := by
  intro l
  induction l with
  | nil => intro n s _; rfl
  | cons s0 rest ih =>
    intro n s h
    simp only [seqAssign]
    rw [lookup_append_none _ (ih (n + 1) s (fun hc => h (List.mem_cons_of_mem _ hc)))]
    have hbe : (s == s0) = false :=
      beq_eq_false_iff_ne.mpr (fun hc => h (by rw [hc]; exact List.mem_cons_self _ _))
    simp [List.lookup, hbe]

/-- Distinct keys receive distinct ids under sequential assignment with
overwrite: the surviving (first-listed) binding for each key is its latest
visit, and ids strictly increase with the visit counter. -/
theorem seqAssign_lookup_inj :
    ∀ (l : List EH) (n : Nat) (s1 s2 : EH) (m1 m2 : Nat), s1 ≠ s2 →
      List.lookup s1 (seqAssign l n) = some m1 →
      List.lookup s2 (seqAssign l n) = some m2 → m1 ≠ m2 := by
  intro l
  induction l with
  | nil => intro n s1 s2 m1 m2 _ h1 _; exact Option.noConfusion h1
  | cons s0 rest ih =>
    intro n s1 s2 m1 m2 hne h1 h2
    simp only [seqAssign] at h1 h2
    cases hr1 : List.lookup s1 (seqAssign rest (n + 1)) with
    | some b1 =>
      rw [lookup_append_some _ hr1] at h1
      injection h1 with h1
      cases hr2 : List.lookup s2 (seqAssign rest (n + 1)) with
      | some b2 =>
        rw [lookup_append_some _ hr2] at h2
        injection h2 with h2
        have hd := ih (n + 1) s1 s2 b1 b2 hne hr1 hr2
        omega
      | none =>
        rw [lookup_append_none _ hr2] at h2
        cases hbe : (s2 == s0) with
        | false =>
          simp only [List.lookup, hbe] at h2
          exact Option.noConfusion h2
        | true =>
          simp only [List.lookup, hbe] at h2
          injection h2 with h2
          obtain ⟨hb1, _⟩ := seqAssign_bounds rest (n + 1) s1 b1 (lookup_mem_of_eq_some hr1)
          omega
    | none =>
      rw [lookup_append_none _ hr1] at h1
      cases hbe1 : (s1 == s0) with
      | false =>
        simp only [List.lookup, hbe1] at h1
        exact Option.noConfusion h1
      | true =>
        simp only [List.lookup, hbe1] at h1
        injection h1 with h1
        cases hr2 : List.lookup s2 (seqAssign rest (n + 1)) with
        | some b2 =>
          rw [lookup_append_some _ hr2] at h2
          injection h2 with h2
          obtain ⟨hb2, _⟩ := seqAssign_bounds rest (n + 1) s2 b2 (lookup_mem_of_eq_some hr2)
          omega
        | none =>
          rw [lookup_append_none _ hr2] at h2
          cases hbe2 : (s2 == s0) with
          | false =>
            simp only [List.lookup, hbe2] at h2
            exact Option.noConfusion h2
          | true =>
            exact absurd ((eq_of_beq hbe1).trans (eq_of_beq hbe2).symm) hne

theorem seqAssign_append :
    ∀ (l1 l2 : List EH) (n : Nat),
      seqAssign (l1 ++ l2) n = seqAssign l2 (n + l1.length) ++ seqAssign l1 n := by
  intro l1
  induction l1 with
  | nil => intro l2 n; simp [seqAssign]
  | cons s rest ih =>
    intro l2 n
    simp only [List.cons_append, seqAssign, List.append_eq]
    rw [ih l2 (n + 1), List.append_assoc]
    have harith : n + 1 + rest.length = n + (rest.length + 1) := by omega
    simp only [List.length_cons]
    rw [harith]

theorem mem_surfVisits {x : EH} :
    ∀ {vs : List Vol}, x ∈ surfVisits vs ↔ ∃ v ∈ vs, x ∈ v.surfs := by
  intro vs
  induction vs with
  | nil => simp [surfVisits]
  | cons v rest ih =>
    simp only [surfVisits]
    constructor
    · intro h
      rcases List.mem_append.mp h with h | h
      · exact ⟨v, List.mem_cons_self _ _, h⟩
      · obtain ⟨w, hw, hx⟩ := ih.mp h
        exact ⟨w, List.mem_cons_of_mem _ hw, hx⟩
    · rintro ⟨w, hw, hx⟩
      rcases List.mem_cons.mp hw with rfl | hw
      · exact List.mem_append.mpr (Or.inl hx)
      · exact List.mem_append.mpr (Or.inr (ih.mpr ⟨w, hw, hx⟩))

/-- The surface loop's effect on the `GLOBAL_ID` table is exactly the
sequential assignment over its list, prepended; the counter advances by the
list length. -/
theorem famSurfs_spec (volfs : EH) :
    ∀ (l : List EH) (sid : Nat) (f : Family),
      (famSurfs volfs l sid f).1.globalId = seqAssign l sid ++ f.globalId ∧
      (famSurfs volfs l sid f).2 = sid + l.length := by
  intro l
  induction l with
  | nil => intro sid f; exact ⟨rfl, rfl⟩
  | cons s rest ih =>
    intro sid f
    simp only [famSurfs, seqAssign]
    obtain ⟨h1, h2⟩ := ih (sid + 1)
      { f with
          parentChild := f.parentChild ++ [(volfs, s)]
          geomDim := (s, 2) :: f.geomDim
          category := (s, catSurface) :: f.category
          globalId := (s, sid + 1) :: f.globalId }
    refine ⟨?_, ?_⟩
    · rw [h1, List.append_assoc]
      rfl
    · rw [h2]
      simp only [List.length_cons]
      omega

/-- A key that is not a volume file set and is never visited by the surface
loops keeps its prior `GLOBAL_ID` binding through the volume loop. -/
theorem famVols_lookup_missed :
    ∀ (vs : List Vol) (vid sid : Nat) (f : Family) (s : EH),
      s ∉ vs.map (fun v => v.fs) →
      List.lookup s (seqAssign (surfVisits vs) sid) = none →
      List.lookup s (famVols vs vid sid f).globalId = List.lookup s f.globalId := by
  intro vs
  induction vs with
  | nil => intro vid sid f s _ _; rfl
  | cons v rest ih =>
    intro vid sid f s hs hq
    simp only [List.map_cons, List.mem_cons, not_or] at hs
    obtain ⟨hsfs, hsrest⟩ := hs
    simp only [surfVisits] at hq
    rw [seqAssign_append] at hq
    cases hr : List.lookup s (seqAssign (surfVisits rest) (sid + v.surfs.length)) with
    | some m =>
      rw [lookup_append_some _ hr] at hq
      exact Option.noConfusion hq
    | none =>
      rw [lookup_append_none _ hr] at hq
      simp only [famVols]
      obtain ⟨hg, hc⟩ := famSurfs_spec v.fs v.surfs sid (famVolTag v vid f)
      rw [ih (vid + 1) ((famSurfs v.fs v.surfs sid (famVolTag v vid f)).2)
          (famSurfs v.fs v.surfs sid (famVolTag v vid f)).1 s hsrest
          (by rw [hc]; exact hr)]
      rw [hg, famVolTag_globalId, lookup_append_none _ hq]
      have hbe : (s == v.fs) = false := beq_eq_false_iff_ne.mpr hsfs
      simp [List.lookup, hbe]

/-- A key that is not a volume file set but is visited by the surface loops
ends with the id of its latest visit. -/
theorem famVols_lookup_found :
    ∀ (vs : List Vol) (vid sid : Nat) (f : Family) (s : EH) (m : Nat),
      s ∉ vs.map (fun v => v.fs) →
      List.lookup s (seqAssign (surfVisits vs) sid) = some m →
      List.lookup s (famVols vs vid sid f).globalId = some m := by
  intro vs
  induction vs with
  | nil => intro vid sid f s m _ hq; exact Option.noConfusion hq
  | cons v rest ih =>
    intro vid sid f s m hs hq
    simp only [List.map_cons, List.mem_cons, not_or] at hs
    obtain ⟨hsfs, hsrest⟩ := hs
    simp only [surfVisits] at hq
    rw [seqAssign_append] at hq
    simp only [famVols]
    obtain ⟨hg, hc⟩ := famSurfs_spec v.fs v.surfs sid (famVolTag v vid f)
    cases hr : List.lookup s (seqAssign (surfVisits rest) (sid + v.surfs.length)) with
    | some m1 =>
      rw [lookup_append_some _ hr] at hq
      injection hq with hq
      subst hq
      exact ih (vid + 1) _ _ s m1 hsrest (by rw [hc]; exact hr)
    | none =>
      rw [lookup_append_none _ hr] at hq
      rw [famVols_lookup_missed rest (vid + 1) _ _ s hsrest (by rw [hc]; exact hr)]
      rw [hg, famVolTag_globalId]
      exact lookup_append_some _ hq

/-- The k-th volume's file set ends with `GLOBAL_ID` vid + k + 1 (dense ids
from the running volume counter) provided no surface visit collides with a
volume file-set handle. -/
theorem famVols_lookup_volkey :
    ∀ (vs : List Vol) (vid sid : Nat) (f : Family) (k : Nat),
      k < vs.length →
      (vs.map (fun v => v.fs)).Nodup →
      (∀ v ∈ vs, ∀ s ∈ v.surfs, s ∉ vs.map (fun v2 => v2.fs)) →
      List.lookup (vs.getD k volDefault).fs (famVols vs vid sid f).globalId
        = some (vid + k + 1) := by
  intro vs
  induction vs with
  | nil => intro vid sid f k hk _ _; exact absurd hk (by simp)
  | cons v rest ih =>
    intro vid sid f k hk hnd hsf
    simp only [famVols]
    obtain ⟨hg, hc⟩ := famSurfs_spec v.fs v.surfs sid (famVolTag v vid f)
    cases k with
    | zero =>
      rw [show (v :: rest).getD 0 volDefault = v from rfl]
      have hnotrest : v.fs ∉ rest.map (fun v2 => v2.fs) := by
        simp only [List.map_cons, List.nodup_cons] at hnd
        exact hnd.1
      have hnovisit :
          List.lookup v.fs (seqAssign (surfVisits rest) (sid + v.surfs.length)) = none := by
        apply seqAssign_lookup_none
        intro hmem
        obtain ⟨v2, hv2, hsm⟩ := mem_surfVisits.mp hmem
        exact hsf v2 (List.mem_cons_of_mem _ hv2) v.fs hsm
          (by simp only [List.map_cons]; exact List.mem_cons_self _ _)
      rw [famVols_lookup_missed rest (vid + 1) _ _ v.fs hnotrest
          (by rw [hc]; exact hnovisit)]
      rw [hg, famVolTag_globalId]
      have hnself : List.lookup v.fs (seqAssign v.surfs sid) = none := by
        apply seqAssign_lookup_none
        intro hmem
        exact hsf v (List.mem_cons_self _ _) v.fs hmem
          (by simp only [List.map_cons]; exact List.mem_cons_self _ _)
      rw [lookup_append_none _ hnself]
      simpa using lookup_cons_self v.fs (vid + 1) f.globalId
    | succ k =>
      have hk2 : k < rest.length := by
        simp only [List.length_cons] at hk
        omega
      have hnd2 : (rest.map (fun v2 => v2.fs)).Nodup := by
        simp only [List.map_cons, List.nodup_cons] at hnd
        exact hnd.2
      have hsf2 : ∀ v2 ∈ rest, ∀ s ∈ v2.surfs, s ∉ rest.map (fun v3 => v3.fs) := by
        intro v2 hv2 s hsm hcon
        exact hsf v2 (List.mem_cons_of_mem _ hv2) s hsm
          (by simp only [List.map_cons]; exact List.mem_cons_of_mem _ hcon)
      have h0 := ih (vid + 1) ((famSurfs v.fs v.surfs sid (famVolTag v vid f)).2)
        (famSurfs v.fs v.surfs sid (famVolTag v vid f)).1 k hk2 hnd2 hsf2
      rw [show (v :: rest).getD (k + 1) volDefault = rest.getD k volDefault from rfl]
      have harith : vid + 1 + k + 1 = vid + (k + 1) + 1 := by omega
      rw [← harith]
      exact h0

/-- Keys absent from one `surf_curve` entry's curve list keep their
`GLOBAL_ID` binding through that entry's curve loop. -/
theorem famCurveList_lookup_skip (skey : EH) :
    ∀ (l : List EH) (cid : Nat) (f : Family) (k : EH), k ∉ l →
      List.lookup k (famCurveList skey l cid f).1.globalId
        = List.lookup k f.globalId := by
  intro l
  induction l with
  | nil => intro cid f k _; rfl
  | cons c rest ih =>
    intro cid f k h
    simp only [famCurveList]
    rw [ih (cid + 1) _ k (fun hc => h (List.mem_cons_of_mem _ hc))]
    have hbe : (k == c) = false :=
      beq_eq_false_iff_ne.mpr (fun hc => h (by rw [hc]; exact List.mem_cons_self _ _))
    simp [List.lookup, hbe]

/-- Keys absent from every curve list keep their `GLOBAL_ID` binding through
the whole curve loop. -/
theorem famCurves_lookup_skip :
    ∀ (sc : List (EH × List EH)) (cid : Nat) (f : Family) (k : EH),
      (∀ e ∈ sc, k ∉ e.2) →
      List.lookup k (famCurves sc cid f).globalId = List.lookup k f.globalId := by
  intro sc
  induction sc with
  | nil => intro cid f k _; rfl
  | cons e rest ih =>
    intro cid f k h
    simp only [famCurves]
    rw [ih _ _ k (fun e2 he2 => h e2 (List.mem_cons_of_mem _ he2)),
        famCurveList_lookup_skip e.1 e.2 cid f k (h e (List.mem_cons_self _ _))]

/-! ### C9: curve parent counting -/

/-- Total number of occurrences of `c` across all `surf_curve` lists. -/
def curveCount (c : EH) (sc : List (EH × List EH)) : Nat :=
  (sc.map (fun e => e.2.count c)).sum

/-- `x` occurs in some `surf_curve` list. -/
def ListsMem (sc : List (EH × List EH)) (x : EH) : Prop := ∃ e ∈ sc, x ∈ e.2

/-- The distinct parents of `c` in the assembled parent-child table. -/
def parentsOf (f : Family) (c : EH) : List EH :=
  ((f.parentChild.filter (fun e => decide (e.2 = c))).map (fun e => e.1)).dedup

theorem updCurveList_keys (l : List (EH × List EH)) (k : EH)
    (f : List EH → List EH) :
    (updCurveList l k f).map (fun e => e.1) = l.map (fun e => e.1) := by
  unfold updCurveList
  rw [List.map_map]
  apply List.map_congr_left
  intro e _
  simp only [Function.comp_apply]
  by_cases hek : e.1 = k
  · rw [if_pos hek]; exact hek.symm
  · rw [if_neg hek]

theorem mem_updCurveList {l : List (EH × List EH)} {k : EH}
    {f : List EH → List EH} {e2 : EH × List EH} (h : e2 ∈ updCurveList l k f) :
    (e2 ∈ l ∧ e2.1 ≠ k) ∨ ∃ e ∈ l, e.1 = k ∧ e2 = (k, f e.2) := by
  obtain ⟨e, he, hge⟩ := List.mem_map.mp h
  by_cases hek : e.1 = k
  · rw [if_pos hek] at hge
    right
    exact ⟨e, he, hek, hge.symm⟩
  · rw [if_neg hek] at hge
    left
    rw [← hge]
    exact ⟨he, hek⟩

theorem updCurveList_id {l : List (EH × List EH)} {k : EH}
    {f : List EH → List EH} (h : ∀ e ∈ l, e.1 ≠ k) : updCurveList l k f = l := by
  unfold updCurveList
  have hmap : l.map (fun e => if e.1 = k then (k, f e.2) else e) = l.map id := by
    apply List.map_congr_left
    intro e he
    rw [if_neg (h e he)]
    rfl
  rw [hmap, List.map_id]

theorem updCurveList_keys_bound {l : List (EH × List EH)} {k : EH}
    {f : List EH → List EH} {n : Nat} (h : ∀ e ∈ l, e.1 < n) :
    ∀ e ∈ updCurveList l k f, e.1 < n := by
  intro e2 he2
  rcases mem_updCurveList he2 with ⟨he, _⟩ | ⟨e, he, hek, rfl⟩
  · exact h e2 he
  · exact hek ▸ h e he

theorem listsMem_append_entry {sc : List (EH × List EH)} {k : EH}
    {lst : List EH} {x : EH} :
    ListsMem (sc ++ [(k, lst)]) x ↔ ListsMem sc x ∨ x ∈ lst := by
  constructor
  · rintro ⟨e, he, hx⟩
    rcases List.mem_append.mp he with he | he
    · exact Or.inl ⟨e, he, hx⟩
    · rcases List.mem_singleton.mp he with rfl
      exact Or.inr hx
  · rintro (⟨e, he, hx⟩ | hx)
    · exact ⟨e, List.mem_append.mpr (Or.inl he), hx⟩
    · exact ⟨(k, lst), List.mem_append.mpr (Or.inr (List.mem_singleton.mpr rfl)), hx⟩

/-- Membership after one `surf_curve[key].append(c)` on the raw dictionary. -/
theorem listsMem_updAppend {l : List (EH × List EH)} {k c x : EH}
    (h : ListsMem (updCurveList l k (fun t => t ++ [c])) x) :
    ListsMem l x ∨ x = c := by
  obtain ⟨e2, he2, hx⟩ := h
  rcases mem_updCurveList he2 with ⟨he, _⟩ | ⟨e, he, _, rfl⟩
  · exact Or.inl ⟨e2, he, hx⟩
  · rcases List.mem_append.mp hx with hx | hx
    · exact Or.inl ⟨e, he, hx⟩
    · exact Or.inr (List.mem_singleton.mp hx)

theorem curveCount_append_entry (c : EH) (sc : List (EH × List EH)) (k : EH)
    (lst : List EH) :
    curveCount c (sc ++ [(k, lst)]) = curveCount c sc + lst.count c := by
  unfold curveCount
  rw [List.map_append, List.sum_append]
  rfl

theorem curveCount_zero_of_not_mem (c : EH) :
    ∀ (sc : List (EH × List EH)), ¬ ListsMem sc c → curveCount c sc = 0 := by
  intro sc
  induction sc with
  | nil => intro _; rfl
  | cons e rest ih =>
    intro h
    simp only [curveCount, List.map_cons, List.sum_cons]
    have h1 : e.2.count c = 0 :=
      List.count_eq_zero.mpr (fun hc => h ⟨e, List.mem_cons_self _ _, hc⟩)
    have h2 := ih (fun hm => by
      obtain ⟨e2, he2, hx⟩ := hm
      exact h ⟨e2, List.mem_cons_of_mem _ he2, hx⟩)
    simp only [curveCount] at h2
    omega

/-- One `surf_curve[key].append(c)` adds at most one occurrence of `c` and
none of any other id, provided the dictionary keys are distinct. -/
theorem curveCount_updAppend_le (c' : EH) :
    ∀ (l : List (EH × List EH)) (k c : EH),
      (l.map (fun e => e.1)).Nodup →
      curveCount c' (updCurveList l k (fun t => t ++ [c])) ≤
        curveCount c' l + (if c' = c then 1 else 0) := by
  intro l
  induction l with
  | nil => intro k c _; simp [updCurveList, curveCount]
  | cons e rest ih =>
    intro k c hnd
    simp only [List.map_cons, List.nodup_cons] at hnd
    obtain ⟨hk1, hk2⟩ := hnd
    by_cases hek : e.1 = k
    · have hstep : updCurveList (e :: rest) k (fun t => t ++ [c])
          = (k, e.2 ++ [c]) :: rest := by
        unfold updCurveList
        rw [List.map_cons, if_pos hek]
        congr 1
        show updCurveList rest k (fun t => t ++ [c]) = rest
        exact updCurveList_id
          (fun e2 he2 hc => hk1 (List.mem_map.mpr ⟨e2, he2, hc.trans hek.symm⟩))
      rw [hstep]
      simp only [curveCount, List.map_cons, List.sum_cons]
      rw [List.count_append]
      have hc1 : List.count c' [c] = if c' = c then 1 else 0 := by
        by_cases h : c' = c <;> simp [h, List.count_singleton]
      rw [hc1]
      omega
    · have hstep : updCurveList (e :: rest) k (fun t => t ++ [c])
          = e :: updCurveList rest k (fun t => t ++ [c]) := by
        unfold updCurveList
        rw [List.map_cons, if_neg hek]
      rw [hstep]
      simp only [curveCount, List.map_cons, List.sum_cons]
      have hrec := ih k c hk2
      simp only [curveCount] at hrec
      omega

theorem lookup_isSome_of_mem_keys :
    ∀ {sc : List (EH × List EH)} {k : EH}, k ∈ sc.map (fun e => e.1) →
      (List.lookup k sc).isSome := by
  intro sc
  induction sc with
  | nil => intro k h; simp at h
  | cons e rest ih =>
    intro k h
    obtain ⟨k0, v0⟩ := e
    simp only [List.map_cons, List.mem_cons] at h
    cases hbe : (k == k0) with
    | true => simp [List.lookup, hbe]
    | false =>
      rcases h with h | h
      · exact absurd h (beq_eq_false_iff_ne.mp hbe)
      · simp only [List.lookup, hbe]
        exact ih h

theorem not_mem_keys_of_lookup_none {sc : List (EH × List EH)} {k : EH}
    (h : List.lookup k sc = none) : k ∉ sc.map (fun e => e.1) := by
  intro hc
  have hs := lookup_isSome_of_mem_keys hc
  rw [h] at hs
  exact Bool.noConfusion hs

theorem dictSetEmpty_of_absent (l : List (EH × List EH)) (k : EH)
    (h : ∀ e ∈ l, e.1 ≠ k) : dictSetEmpty l k = l ++ [(k, [])] := by
  unfold dictSetEmpty
  cases hq : List.lookup k l with
  | none => simp
  | some b => exact absurd rfl (h (k, b) (lookup_mem_of_eq_some hq))

/-- The invariant carried through `__imprint_merge` that bounds how often a
curve id can occur in `surf_curve`: distinct dictionary keys; keys, curve ids
and volume-listed surfaces all below the allocation counter; every id at most
three occurrences across all lists; and no volume-listed surface doubling as
a registered curve. -/
def WfC (σ : GeomState) : Prop :=
  (σ.surfCurve.map (fun e => e.1)).Nodup ∧
  (∀ e ∈ σ.surfCurve, e.1 < σ.next) ∧
  (∀ x, ListsMem σ.surfCurve x → x < σ.next) ∧
  (∀ c, curveCount c σ.surfCurve ≤ 3) ∧
  (∀ v ∈ σ.vols, ∀ s ∈ v.surfs, s < σ.next) ∧
  (∀ v ∈ σ.vols, ∀ s ∈ v.surfs, ¬ ListsMem σ.surfCurve s)

/-- Invariant for the accumulated `match_surfs` handles: fresh and never
registered as curves. -/
def MsOK (σ : GeomState) (ms : List EH) : Prop :=
  ∀ m ∈ ms, m < σ.next ∧ ¬ ListsMem σ.surfCurve m

theorem newSurfStep_next (surf : EH) (t1 : List EH) (mo : MatchOut)
    (σ : GeomState) : (newSurfStep surf t1 mo σ).next = σ.next + 1 := rfl

theorem newSurfStep_surfCurve (surf : EH) (t1 : List EH) (mo : MatchOut)
    (σ : GeomState) :
    (newSurfStep surf t1 mo σ).surfCurve = dictSetEmpty σ.surfCurve surf := rfl

theorem removalStep_surfCurve (s1 s2 : EH) (mo : MatchOut) (t1 t2 : List EH)
    (σ : GeomState) : (removalStep s1 s2 mo t1 t2 σ).surfCurve = σ.surfCurve := rfl

theorem removalStep_next (s1 s2 : EH) (mo : MatchOut) (t1 t2 : List EH)
    (σ : GeomState) : (removalStep s1 s2 mo t1 t2 σ).next = σ.next := rfl

theorem tagStep_surfCurve (norm : ℤ) (p1 p2 : Nat) (surf : EH) (σ : GeomState) :
    (tagStep norm p1 p2 surf σ).surfCurve = σ.surfCurve := rfl

theorem tagStep_next (norm : ℤ) (p1 p2 : Nat) (surf : EH) (σ : GeomState) :
    (tagStep norm p1 p2 surf σ).next = σ.next := rfl

theorem modifyVol_surfCurve (σ : GeomState) (p : Nat) (f : Vol → Vol) :
    (modifyVol σ p f).surfCurve = σ.surfCurve := rfl

theorem modifyVol_next (σ : GeomState) (p : Nat) (f : Vol → Vol) :
    (modifyVol σ p f).next = σ.next := rfl

theorem initCurveEntry_next (σ : GeomState) (k : EH) :
    (initCurveEntry σ k).next = σ.next := by
  unfold initCurveEntry
  split <;> rfl

theorem volAt_mem_or_default (σ : GeomState) (p : Nat) :
    volAt σ p ∈ σ.vols ∨ volAt σ p = volDefault := by
  by_cases hp : p < σ.vols.length
  · left
    show σ.vols.getD p _ ∈ σ.vols
    rw [List.getD_eq_getElem _ _ hp]
    exact List.getElem_mem hp
  · right
    show σ.vols.getD p _ = volDefault
    rw [List.getD_eq_getElem?_getD, List.getElem?_eq_none (by omega)]
    rfl

theorem wfc_initCurveEntry {σ : GeomState} {k : EH} (hw : WfC σ)
    (hk : k < σ.next) : WfC (initCurveEntry σ k) := by
  obtain ⟨w1, w2, w3, w4, w5, w6⟩ := hw
  unfold initCurveEntry
  split
  · exact ⟨w1, w2, w3, w4, w5, w6⟩
  · rename_i hno
    have hlk : List.lookup k σ.surfCurve = none :=
      Option.not_isSome_iff_eq_none.mp hno
    refine ⟨?_, ?_, ?_, ?_, w5, ?_⟩
    · show ((σ.surfCurve ++ [(k, ([] : List EH))]).map
        (fun (e : EH × List EH) => e.1)).Nodup
      rw [List.map_append]
      apply List.Nodup.append w1 (List.nodup_singleton k)
      intro a ha hb
      rw [List.mem_singleton] at hb
      subst hb
      exact not_mem_keys_of_lookup_none hlk ha
    · intro e he
      rcases List.mem_append.mp he with he | he
      · exact w2 e he
      · rcases List.mem_singleton.mp he with rfl
        exact hk
    · intro x hx
      have hx2 : ListsMem (σ.surfCurve ++ [(k, [])]) x := hx
      rcases listsMem_append_entry.mp hx2 with hx | hx
      · exact w3 x hx
      · exact absurd hx (List.not_mem_nil x)
    · intro c
      show curveCount c (σ.surfCurve ++ [(k, [])]) ≤ 3
      rw [curveCount_append_entry]
      simpa using w4 c
    · intro v hv s hs hls
      have hls2 : ListsMem (σ.surfCurve ++ [(k, [])]) s := hls
      rcases listsMem_append_entry.mp hls2 with h | h
      · exact w6 v hv s hs h
      · exact List.not_mem_nil s h

theorem msOK_initCurveEntry {σ : GeomState} {k : EH} {ms : List EH}
    (hm : MsOK σ ms) : MsOK (initCurveEntry σ k) ms := by
  intro m hmem
  obtain ⟨h1, h2⟩ := hm m hmem
  unfold initCurveEntry
  split
  · exact ⟨h1, h2⟩
  · refine ⟨h1, ?_⟩
    intro hc
    have hc2 : ListsMem (σ.surfCurve ++ [(k, [])]) m := hc
    rcases listsMem_append_entry.mp hc2 with hc | hc
    · exact h2 hc
    · exact List.not_mem_nil m hc

theorem wfc_newSurfStep {t1 : List EH} {mo : MatchOut} {σ : GeomState}
    (hw : WfC σ) : WfC (newSurfStep σ.next t1 mo σ) := by
  obtain ⟨w1, w2, w3, w4, w5, w6⟩ := hw
  have hset : dictSetEmpty σ.surfCurve σ.next = σ.surfCurve ++ [(σ.next, [])] :=
    dictSetEmpty_of_absent _ _ (fun e he => Nat.ne_of_lt (w2 e he))
  refine ⟨?_, ?_, ?_, ?_, ?_, ?_⟩
  · show ((dictSetEmpty σ.surfCurve σ.next).map (fun e => e.1)).Nodup
    rw [hset, List.map_append]
    apply List.Nodup.append w1 (List.nodup_singleton σ.next)
    intro a ha hb
    rw [List.mem_singleton] at hb
    subst hb
    obtain ⟨e, he, hek⟩ := List.mem_map.mp ha
    exact absurd (hek ▸ w2 e he) (lt_irrefl _)
  · intro e he
    have he2 : e ∈ σ.surfCurve ++ [(σ.next, [])] := hset ▸ he
    rcases List.mem_append.mp he2 with he3 | he3
    · exact Nat.lt_succ_of_lt (w2 e he3)
    · rcases List.mem_singleton.mp he3 with rfl
      exact Nat.lt_succ_self _
  · intro x hx
    have hx2 : ListsMem (dictSetEmpty σ.surfCurve σ.next) x := hx
    rw [hset] at hx2
    rcases listsMem_append_entry.mp hx2 with hx3 | hx3
    · exact Nat.lt_succ_of_lt (w3 x hx3)
    · exact absurd hx3 (List.not_mem_nil x)
  · intro c
    show curveCount c (dictSetEmpty σ.surfCurve σ.next) ≤ 3
    rw [hset, curveCount_append_entry]
    simpa using w4 c
  · intro v hv s hs
    exact Nat.lt_succ_of_lt (w5 v hv s hs)
  · intro v hv s hs hls
    have hls2 : ListsMem (dictSetEmpty σ.surfCurve σ.next) s := hls
    rw [hset] at hls2
    rcases listsMem_append_entry.mp hls2 with h | h
    · exact w6 v hv s hs h
    · exact List.not_mem_nil s h

theorem newSurfStep_listsMem {t1 : List EH} {mo : MatchOut} {σ : GeomState}
    (hk : ∀ e ∈ σ.surfCurve, e.1 < σ.next) :
    ∀ x, ListsMem (newSurfStep σ.next t1 mo σ).surfCurve x →
      ListsMem σ.surfCurve x := by
  intro x hx
  have hx2 : ListsMem (dictSetEmpty σ.surfCurve σ.next) x := hx
  rw [dictSetEmpty_of_absent _ _ (fun e he => Nat.ne_of_lt (hk e he))] at hx2
  rcases listsMem_append_entry.mp hx2 with h | h
  · exact h
  · exact absurd h (List.not_mem_nil x)

theorem msOK_newSurfStep {t1 : List EH} {mo : MatchOut} {σ : GeomState}
    {ms : List EH} (hm : MsOK σ ms)
    (hk : ∀ e ∈ σ.surfCurve, e.1 < σ.next) :
    MsOK (newSurfStep σ.next t1 mo σ) ms := by
  intro m hmem
  obtain ⟨h1, h2⟩ := hm m hmem
  exact ⟨Nat.lt_succ_of_lt h1, fun hc => h2 (newSurfStep_listsMem hk m hc)⟩

theorem curveStep_next_mono (s1 s2 surf : EH) (mo : MatchOut) (t1 : List EH)
    (σ : GeomState) : σ.next ≤ (curveStep s1 s2 surf mo t1 σ).next := by
  simp only [curveStep]
  split
  · exact Nat.le_refl _
  · exact Nat.le_succ _

theorem curveStep_listsMem (s1 s2 surf : EH) (mo : MatchOut) (t1 : List EH)
    (σ : GeomState) :
    ∀ x, ListsMem (curveStep s1 s2 surf mo t1 σ).surfCurve x →
      ListsMem σ.surfCurve x ∨ x = σ.next := by
  simp only [curveStep]
  split
  · exact fun x hx => Or.inl hx
  · intro x hx
    have hx3 : ListsMem (updCurveList (updCurveList (updCurveList σ.surfCurve s1
        (fun t => t ++ [σ.next])) s2 (fun t => t ++ [σ.next])) surf
        (fun t => t ++ [σ.next])) x := hx
    rcases listsMem_updAppend hx3 with h2 | h2
    · rcases listsMem_updAppend h2 with h1 | h1
      · rcases listsMem_updAppend h1 with h0 | h0
        · exact Or.inl h0
        · exact Or.inr h0
      · exact Or.inr h1
    · exact Or.inr h2

theorem wfc_curveStep {s1 s2 surf : EH} {mo : MatchOut} {t1 : List EH}
    {σ : GeomState} (hw : WfC σ) : WfC (curveStep s1 s2 surf mo t1 σ) := by
  obtain ⟨w1, w2, w3, w4, w5, w6⟩ := hw
  simp only [curveStep]
  split
  · exact ⟨w1, w2, w3, w4, w5, w6⟩
  · refine ⟨?_, ?_, ?_, ?_, ?_, ?_⟩
    · show ((updCurveList (updCurveList (updCurveList σ.surfCurve s1
        (fun t => t ++ [σ.next])) s2 (fun t => t ++ [σ.next])) surf
        (fun t => t ++ [σ.next])).map (fun e => e.1)).Nodup
      rw [updCurveList_keys, updCurveList_keys, updCurveList_keys]
      exact w1
    · show ∀ e ∈ updCurveList (updCurveList (updCurveList σ.surfCurve s1
        (fun t => t ++ [σ.next])) s2 (fun t => t ++ [σ.next])) surf
        (fun t => t ++ [σ.next]), e.1 < σ.next + 1
      apply updCurveList_keys_bound
      apply updCurveList_keys_bound
      apply updCurveList_keys_bound
      intro e he
      exact Nat.lt_succ_of_lt (w2 e he)
    · intro x hx
      have hx3 : ListsMem (updCurveList (updCurveList (updCurveList σ.surfCurve s1
          (fun t => t ++ [σ.next])) s2 (fun t => t ++ [σ.next])) surf
          (fun t => t ++ [σ.next])) x := hx
      rcases listsMem_updAppend hx3 with h2 | h2
      · rcases listsMem_updAppend h2 with h1 | h1
        · rcases listsMem_updAppend h1 with h0 | h0
          · exact Nat.lt_succ_of_lt (w3 x h0)
          · exact h0 ▸ Nat.lt_succ_self _
        · exact h1 ▸ Nat.lt_succ_self _
      · exact h2 ▸ Nat.lt_succ_self _
    · intro c
      show curveCount c (updCurveList (updCurveList (updCurveList σ.surfCurve s1
        (fun t => t ++ [σ.next])) s2 (fun t => t ++ [σ.next])) surf
        (fun t => t ++ [σ.next])) ≤ 3
      have hnd1 : ((updCurveList σ.surfCurve s1
          (fun t => t ++ [σ.next])).map (fun e => e.1)).Nodup := by
        rw [updCurveList_keys]; exact w1
      have hnd2 : ((updCurveList (updCurveList σ.surfCurve s1
          (fun t => t ++ [σ.next])) s2
          (fun t => t ++ [σ.next])).map (fun e => e.1)).Nodup := by
        rw [updCurveList_keys, updCurveList_keys]; exact w1
      have h3 := curveCount_updAppend_le c _ surf σ.next hnd2
      have h2 := curveCount_updAppend_le c _ s2 σ.next hnd1
      have h1 := curveCount_updAppend_le c _ s1 σ.next w1
      by_cases hcc : c = σ.next
      · have h0 : curveCount c σ.surfCurve = 0 := by
          apply curveCount_zero_of_not_mem
          intro hmc
          exact absurd (w3 c hmc) (by rw [hcc]; exact lt_irrefl _)
        rw [if_pos hcc] at h1 h2 h3
        omega
      · rw [if_neg hcc] at h1 h2 h3
        have := w4 c
        omega
    · intro v hv s hs
      exact Nat.lt_succ_of_lt (w5 v hv s hs)
    · intro v hv s hs hls
      have hsn : s < σ.next := w5 v hv s hs
      have hls3 : ListsMem (updCurveList (updCurveList (updCurveList σ.surfCurve s1
          (fun t => t ++ [σ.next])) s2 (fun t => t ++ [σ.next])) surf
          (fun t => t ++ [σ.next])) s := hls
      rcases listsMem_updAppend hls3 with h2 | h2
      · rcases listsMem_updAppend h2 with h1 | h1
        · rcases listsMem_updAppend h1 with h0 | h0
          · exact w6 v hv s hs h0
          · exact absurd hsn (by rw [h0]; exact lt_irrefl _)
        · exact absurd hsn (by rw [h1]; exact lt_irrefl _)
      · exact absurd hsn (by rw [h2]; exact lt_irrefl _)

theorem msOK_curveStep {s1 s2 surf : EH} {mo : MatchOut} {t1 : List EH}
    {σ : GeomState} {ms : List EH} (hm : MsOK σ ms) :
    MsOK (curveStep s1 s2 surf mo t1 σ) ms := by
  intro m hmem
  obtain ⟨h1, h2⟩ := hm m hmem
  refine ⟨Nat.lt_of_lt_of_le h1 (curveStep_next_mono s1 s2 surf mo t1 σ), ?_⟩
  intro hc
  rcases curveStep_listsMem s1 s2 surf mo t1 σ m hc with h | h
  · exact h2 h
  · exact absurd h1 (by rw [h]; exact lt_irrefl _)

theorem wfc_removalStep {s1 s2 : EH} {mo : MatchOut} {t1 t2 : List EH}
    {σ : GeomState} (hw : WfC σ) : WfC (removalStep s1 s2 mo t1 t2 σ) := hw

theorem msOK_removalStep {s1 s2 : EH} {mo : MatchOut} {t1 t2 : List EH}
    {σ : GeomState} {ms : List EH} (hm : MsOK σ ms) :
    MsOK (removalStep s1 s2 mo t1 t2 σ) ms := hm

theorem wfc_tagStep {norm : ℤ} {p1 p2 : Nat} {surf : EH} {σ : GeomState}
    (hw : WfC σ) : WfC (tagStep norm p1 p2 surf σ) := hw

theorem msOK_tagStep {norm : ℤ} {p1 p2 : Nat} {surf : EH} {σ : GeomState}
    {ms : List EH} (hm : MsOK σ ms) : MsOK (tagStep norm p1 p2 surf σ) ms := hm

theorem wfc_modifyVol_erase {σ : GeomState} {p : Nat} {s : EH} (hw : WfC σ) :
    WfC (modifyVol σ p (fun v => { v with surfs := v.surfs.erase s })) := by
  obtain ⟨w1, w2, w3, w4, w5, w6⟩ := hw
  refine ⟨w1, w2, w3, w4, ?_, ?_⟩
  · intro v hv x hx
    rcases List.mem_or_eq_of_mem_set hv with hv2 | rfl
    · exact w5 v hv2 x hx
    · rcases volAt_mem_or_default σ p with hm | hm
      · exact w5 _ hm x (List.mem_of_mem_erase hx)
      · rw [hm] at hx
        simp [volDefault] at hx
  · intro v hv x hx hls
    rcases List.mem_or_eq_of_mem_set hv with hv2 | rfl
    · exact w6 v hv2 x hx hls
    · rcases volAt_mem_or_default σ p with hm | hm
      · exact w6 _ hm x (List.mem_of_mem_erase hx) hls
      · rw [hm] at hx
        simp [volDefault] at hx

theorem msOK_modifyVol {σ : GeomState} {p : Nat} {f : Vol → Vol} {ms : List EH}
    (hm : MsOK σ ms) : MsOK (modifyVol σ p f) ms := hm

theorem wfc_modifyVol_extend {σ : GeomState} {p : Nat} {ex : List EH}
    (hw : WfC σ) (hex1 : ∀ m ∈ ex, m < σ.next)
    (hex2 : ∀ m ∈ ex, ¬ ListsMem σ.surfCurve m) :
    WfC (modifyVol σ p (fun v => { v with surfs := v.surfs ++ ex })) := by
  obtain ⟨w1, w2, w3, w4, w5, w6⟩ := hw
  refine ⟨w1, w2, w3, w4, ?_, ?_⟩
  · intro v hv x hx
    rcases List.mem_or_eq_of_mem_set hv with hv2 | rfl
    · exact w5 v hv2 x hx
    · have hx2 : x ∈ (volAt σ p).surfs ++ ex := hx
      rcases List.mem_append.mp hx2 with hx3 | hx3
      · rcases volAt_mem_or_default σ p with hm | hm
        · exact w5 _ hm x hx3
        · rw [hm] at hx3
          simp [volDefault] at hx3
      · exact hex1 x hx3
  · intro v hv x hx hls
    rcases List.mem_or_eq_of_mem_set hv with hv2 | rfl
    · exact w6 v hv2 x hx hls
    · have hx2 : x ∈ (volAt σ p).surfs ++ ex := hx
      rcases List.mem_append.mp hx2 with hx3 | hx3
      · rcases volAt_mem_or_default σ p with hm | hm
        · exact w6 _ hm x hx3 hls
        · rw [hm] at hx3
          simp [volDefault] at hx3
      · exact hex2 x hx3 hls

theorem wfc_iterState {σ : GeomState} {s1 s2 : EH} (hw : WfC σ)
    (hk : s2 < σ.next) : WfC (iterState s1 s2 σ) :=
  wfc_initCurveEntry hw hk

theorem msOK_iterState {σ : GeomState} {s1 s2 : EH} {ms : List EH}
    (hm : MsOK σ ms) : MsOK (iterState s1 s2 σ) ms :=
  msOK_initCurveEntry hm

theorem iterState_next (s1 s2 : EH) (σ : GeomState) :
    (iterState s1 s2 σ).next = σ.next := by
  simp [iterState, initCurveEntry_next]

/-- The two emptiness checks and removals at the end of the merge body, for
an arbitrary intermediate state. -/
theorem mergeTail_wfc (p1 p2 : Nat) (s1 s2 : EH) (ms2 : List EH)
    (σD : GeomState) (hwD : WfC σD) (hmD : MsOK σD ms2) (n0 : Nat)
    (hn : n0 ≤ σD.next) :
    WfC ((if surfVertsOf (if surfVertsOf σD s2 = [] then modifyVol σD p2
        (fun v => { v with surfs := v.surfs.erase s2 }) else σD) s1 = [] then
      (⟨modifyVol (if surfVertsOf σD s2 = [] then modifyVol σD p2
          (fun v => { v with surfs := v.surfs.erase s2 }) else σD) p1
          (fun v => { v with surfs := v.surfs.erase s1 }), ms2, true⟩ : BodyOut)
      else ⟨(if surfVertsOf σD s2 = [] then modifyVol σD p2
          (fun v => { v with surfs := v.surfs.erase s2 }) else σD), ms2,
          false⟩)).st ∧
    MsOK ((if surfVertsOf (if surfVertsOf σD s2 = [] then modifyVol σD p2
        (fun v => { v with surfs := v.surfs.erase s2 }) else σD) s1 = [] then
      (⟨modifyVol (if surfVertsOf σD s2 = [] then modifyVol σD p2
          (fun v => { v with surfs := v.surfs.erase s2 }) else σD) p1
          (fun v => { v with surfs := v.surfs.erase s1 }), ms2, true⟩ : BodyOut)
      else ⟨(if surfVertsOf σD s2 = [] then modifyVol σD p2
          (fun v => { v with surfs := v.surfs.erase s2 }) else σD), ms2,
          false⟩)).st
      ((if surfVertsOf (if surfVertsOf σD s2 = [] then modifyVol σD p2
        (fun v => { v with surfs := v.surfs.erase s2 }) else σD) s1 = [] then
      (⟨modifyVol (if surfVertsOf σD s2 = [] then modifyVol σD p2
          (fun v => { v with surfs := v.surfs.erase s2 }) else σD) p1
          (fun v => { v with surfs := v.surfs.erase s1 }), ms2, true⟩ : BodyOut)
      else ⟨(if surfVertsOf σD s2 = [] then modifyVol σD p2
          (fun v => { v with surfs := v.surfs.erase s2 }) else σD), ms2,
          false⟩)).ms ∧
    n0 ≤ ((if surfVertsOf (if surfVertsOf σD s2 = [] then modifyVol σD p2
        (fun v => { v with surfs := v.surfs.erase s2 }) else σD) s1 = [] then
      (⟨modifyVol (if surfVertsOf σD s2 = [] then modifyVol σD p2
          (fun v => { v with surfs := v.surfs.erase s2 }) else σD) p1
          (fun v => { v with surfs := v.surfs.erase s1 }), ms2, true⟩ : BodyOut)
      else ⟨(if surfVertsOf σD s2 = [] then modifyVol σD p2
          (fun v => { v with surfs := v.surfs.erase s2 }) else σD), ms2,
          false⟩)).st.next := by
  by_cases h2 : surfVertsOf σD s2 = []
  · rw [if_pos h2]
    by_cases h1 : surfVertsOf (modifyVol σD p2
        (fun v => { v with surfs := v.surfs.erase s2 })) s1 = []
    · rw [if_pos h1]
      exact ⟨wfc_modifyVol_erase (wfc_modifyVol_erase hwD), hmD, hn⟩
    · rw [if_neg h1]
      exact ⟨wfc_modifyVol_erase hwD, hmD, hn⟩
  · rw [if_neg h2]
    by_cases h1 : surfVertsOf σD s1 = []
    · rw [if_pos h1]
      exact ⟨wfc_modifyVol_erase hwD, hmD, hn⟩
    · rw [if_neg h1]
      exact ⟨hwD, hmD, hn⟩

set_option maxHeartbeats 1000000 in
/-- The merge body preserves the curve-registration invariant, keeps the
accumulated (and freshly appended) `match_surfs` handles fresh and
unregistered, and never decreases the allocation counter. -/
theorem mergeBody_wfc (tol norm : ℤ) (p1 p2 : Nat) (s1 : EH)
    (verts1 : List (EH × Pt)) (s2 : EH) (ms : List EH) (σ : GeomState)
    (hw : WfC σ) (hm : MsOK σ ms) :
    WfC (mergeBody tol norm p1 p2 s1 verts1 s2 ms σ).st ∧
    MsOK (mergeBody tol norm p1 p2 s1 verts1 s2 ms σ).st
      (mergeBody tol norm p1 p2 s1 verts1 s2 ms σ).ms ∧
    σ.next ≤ (mergeBody tol norm p1 p2 s1 verts1 s2 ms σ).st.next := by
  have hw2 : ∀ e ∈ σ.surfCurve, e.1 < σ.next := hw.2.1
  have hw3 : ∀ x, ListsMem σ.surfCurve x → x < σ.next := hw.2.2.1
  simp only [mergeBody]
  split
  · exact ⟨hw, hm, Nat.le_refl _⟩
  · generalize getMatches tol verts1 (listCoordsInv σ s2) = mo
    generalize getSurfTriangles σ.tris mo.sAeh = t1
    generalize getSurfTriangles σ.tris mo.sBeh = t2
    have hwD : WfC (tagStep norm p1 p2 σ.next (removalStep s1 s2 mo t1 t2
        (curveStep s1 s2 σ.next mo t1 (newSurfStep σ.next t1 mo σ)))) :=
      wfc_tagStep (wfc_removalStep (wfc_curveStep (wfc_newSurfStep hw)))
    have hnB : σ.next + 1 ≤ (curveStep s1 s2 σ.next mo t1
        (newSurfStep σ.next t1 mo σ)).next := by
      have hmono := curveStep_next_mono s1 s2 σ.next mo t1 (newSurfStep σ.next t1 mo σ)
      rwa [newSurfStep_next] at hmono
    have hnD : σ.next + 1 ≤ (tagStep norm p1 p2 σ.next (removalStep s1 s2 mo t1 t2
        (curveStep s1 s2 σ.next mo t1 (newSurfStep σ.next t1 mo σ)))).next := by
      rwa [tagStep_next, removalStep_next]
    have hnle : σ.next ≤ (tagStep norm p1 p2 σ.next (removalStep s1 s2 mo t1 t2
        (curveStep s1 s2 σ.next mo t1 (newSurfStep σ.next t1 mo σ)))).next :=
      Nat.le_of_succ_le hnD
    have hnotm : ¬ ListsMem (tagStep norm p1 p2 σ.next (removalStep s1 s2 mo t1 t2
        (curveStep s1 s2 σ.next mo t1 (newSurfStep σ.next t1 mo σ)))).surfCurve
        σ.next := by
      intro hc
      rw [tagStep_surfCurve, removalStep_surfCurve] at hc
      rcases curveStep_listsMem _ _ _ _ _ _ σ.next hc with h | h
      · exact absurd (hw3 σ.next (newSurfStep_listsMem hw2 σ.next h)) (lt_irrefl _)
      · rw [newSurfStep_next] at h
        exact Nat.succ_ne_self σ.next h.symm
    have hmD : MsOK (tagStep norm p1 p2 σ.next (removalStep s1 s2 mo t1 t2
        (curveStep s1 s2 σ.next mo t1 (newSurfStep σ.next t1 mo σ))))
        (ms ++ [σ.next]) := by
      intro m hmem
      rcases List.mem_append.mp hmem with h | h
      · obtain ⟨hb1, hb2⟩ := hm m h
        refine ⟨Nat.lt_of_lt_of_le hb1 hnle, ?_⟩
        intro hc
        rw [tagStep_surfCurve, removalStep_surfCurve] at hc
        rcases curveStep_listsMem _ _ _ _ _ _ m hc with h2 | h2
        · exact hb2 (newSurfStep_listsMem hw2 m h2)
        · rw [newSurfStep_next] at h2
          rw [h2] at hb1
          exact absurd (Nat.lt_of_succ_lt hb1) (lt_irrefl _)
      · rcases List.mem_singleton.mp h with rfl
        exact ⟨Nat.lt_of_succ_le hnD, hnotm⟩
    exact mergeTail_wfc p1 p2 s1 s2 (ms ++ [σ.next])
      (tagStep norm p1 p2 σ.next (removalStep s1 s2 mo t1 t2
        (curveStep s1 s2 σ.next mo t1 (newSurfStep σ.next t1 mo σ))))
      hwD hmD σ.next hnle

theorem innerLoop_wfc (tol norm : ℤ) (p1 p2 : Nat) (s1 : EH)
    (verts1 : List (EH × Pt)) :
    ∀ (fuel i2 : Nat) (ms : List EH) (σ : GeomState), WfC σ → MsOK σ ms →
      WfC (innerLoop tol norm p1 p2 s1 verts1 fuel i2 ms σ).1 ∧
      MsOK (innerLoop tol norm p1 p2 s1 verts1 fuel i2 ms σ).1
        (innerLoop tol norm p1 p2 s1 verts1 fuel i2 ms σ).2.1 ∧
      σ.next ≤ (innerLoop tol norm p1 p2 s1 verts1 fuel i2 ms σ).1.next := by
  intro fuel
  induction fuel with
  | zero => intro i2 ms σ hw hm; exact ⟨hw, hm, Nat.le_refl _⟩
  | succ fuel ih =>
    intro i2 ms σ hw hm
    simp only [innerLoop]
    split
    · rename_i hlen
      have hs2mem : (volAt σ p2).surfs.getD i2 0 ∈ (volAt σ p2).surfs := by
        rw [List.getD_eq_getElem _ _ hlen]
        exact List.getElem_mem hlen
      have hs2lt : (volAt σ p2).surfs.getD i2 0 < σ.next := by
        rcases volAt_mem_or_default σ p2 with hmv | hmv
        · exact hw.2.2.2.2.1 _ hmv _ hs2mem
        · rw [hmv] at hs2mem
          simp [volDefault] at hs2mem
      have hwI : WfC (iterState s1 ((volAt σ p2).surfs.getD i2 0) σ) :=
        wfc_iterState hw hs2lt
      have hmI : MsOK (iterState s1 ((volAt σ p2).surfs.getD i2 0) σ) ms :=
        msOK_iterState hm
      have hB := mergeBody_wfc tol norm p1 p2 s1 verts1
        ((volAt σ p2).surfs.getD i2 0) ms
        (iterState s1 ((volAt σ p2).surfs.getD i2 0) σ) hwI hmI
      have hBn : σ.next ≤ (mergeBody tol norm p1 p2 s1 verts1
          ((volAt σ p2).surfs.getD i2 0) ms
          (iterState s1 ((volAt σ p2).surfs.getD i2 0) σ)).st.next := by
        have h0 := hB.2.2
        rwa [iterState_next] at h0
      split
      · exact ⟨hB.1, hB.2.1, hBn⟩
      · have ih2 := ih (i2 + 1) _ _ hB.1 hB.2.1
        exact ⟨ih2.1, ih2.2.1, Nat.le_trans hBn ih2.2.2⟩
    · exact ⟨hw, hm, Nat.le_refl _⟩

theorem outerLoop_wfc (tol norm : ℤ) (p1 p2 : Nat) :
    ∀ (fuel i1 : Nat) (ms : List EH) (σ : GeomState), WfC σ → MsOK σ ms →
      WfC (outerLoop tol norm p1 p2 fuel i1 ms σ).1 ∧
      MsOK (outerLoop tol norm p1 p2 fuel i1 ms σ).1
        (outerLoop tol norm p1 p2 fuel i1 ms σ).2 ∧
      σ.next ≤ (outerLoop tol norm p1 p2 fuel i1 ms σ).1.next := by
  intro fuel
  induction fuel with
  | zero => intro i1 ms σ hw hm; exact ⟨hw, hm, Nat.le_refl _⟩
  | succ fuel ih =>
    intro i1 ms σ hw hm
    simp only [outerLoop]
    split
    · rename_i hlen
      have hs1mem : (volAt σ p1).surfs.getD i1 0 ∈ (volAt σ p1).surfs := by
        rw [List.getD_eq_getElem _ _ hlen]
        exact List.getElem_mem hlen
      have hs1lt : (volAt σ p1).surfs.getD i1 0 < σ.next := by
        rcases volAt_mem_or_default σ p1 with hmv | hmv
        · exact hw.2.2.2.2.1 _ hmv _ hs1mem
        · rw [hmv] at hs1mem
          simp [volDefault] at hs1mem
      have hwI : WfC (initCurveEntry σ ((volAt σ p1).surfs.getD i1 0)) :=
        wfc_initCurveEntry hw hs1lt
      have hmI : MsOK (initCurveEntry σ ((volAt σ p1).surfs.getD i1 0)) ms :=
        msOK_initCurveEntry hm
      have hI := innerLoop_wfc tol norm p1 p2 ((volAt σ p1).surfs.getD i1 0)
        (listCoords σ ((volAt σ p1).surfs.getD i1 0))
        ((volAt (initCurveEntry σ ((volAt σ p1).surfs.getD i1 0)) p2).surfs.length + 1)
        0 ms (initCurveEntry σ ((volAt σ p1).surfs.getD i1 0)) hwI hmI
      have ihr := ih (i1 + 1) _ _ hI.1 hI.2.1
      refine ⟨ihr.1, ihr.2.1, ?_⟩
      have hn1 : σ.next ≤ (innerLoop tol norm p1 p2
          ((volAt σ p1).surfs.getD i1 0)
          (listCoords σ ((volAt σ p1).surfs.getD i1 0))
          ((volAt (initCurveEntry σ ((volAt σ p1).surfs.getD i1 0)) p2).surfs.length + 1)
          0 ms (initCurveEntry σ ((volAt σ p1).surfs.getD i1 0))).1.next := by
        have h0 := hI.2.2
        rwa [initCurveEntry_next] at h0
      exact Nat.le_trans hn1 ihr.2.2
    · exact ⟨hw, hm, Nat.le_refl _⟩

theorem compareSurfs_wfc (tol norm : ℤ) (p1 p2 : Nat) (σ : GeomState)
    (hw : WfC σ) :
    WfC (compareSurfs tol norm p1 p2 σ) ∧
    σ.next ≤ (compareSurfs tol norm p1 p2 σ).next := by
  have h := outerLoop_wfc tol norm p1 p2 ((volAt σ p1).surfs.length + 1) 0 [] σ
    hw (fun m hmem => absurd hmem (List.not_mem_nil m))
  unfold compareSurfs
  constructor
  · apply wfc_modifyVol_extend
    · apply wfc_modifyVol_extend h.1
      · intro m hmem
        exact (h.2.1 m hmem).1
      · intro m hmem
        exact (h.2.1 m hmem).2
    · intro m hmem
      exact (h.2.1 m hmem).1
    · intro m hmem
      exact (h.2.1 m hmem).2
  · exact h.2.2

theorem passLoop_wfc (tol norm : ℤ) (nL : Nat) :
    ∀ (fuel i : Nat) (σ : GeomState), WfC σ →
      WfC (passLoop tol norm nL fuel i σ) := by
  intro fuel
  induction fuel with
  | zero => intro i σ hw; exact hw
  | succ fuel ih =>
    intro i σ hw
    simp only [passLoop]
    split
    · apply ih
      split
      · exact hw
      · exact (compareSurfs_wfc tol norm i (i + 1) σ hw).1
    · exact hw

theorem postSurf_surfCurve (volfs : EH) (σ : GeomState) (s : EH) :
    (postSurf volfs σ s).surfCurve = σ.surfCurve := by
  simp only [postSurf]
  split <;> split <;> rfl

theorem postSurf_next (volfs : EH) (σ : GeomState) (s : EH) :
    (postSurf volfs σ s).next = σ.next := by
  simp only [postSurf]
  split <;> split <;> rfl

theorem postFoldSurfs_surfCurve (volfs : EH) :
    ∀ (l : List EH) (σ : GeomState),
      (l.foldl (fun a s => postSurf volfs a s) σ).surfCurve = σ.surfCurve := by
  intro l
  induction l with
  | nil => intro σ; rfl
  | cons s rest ih =>
    intro σ
    rw [List.foldl_cons, ih, postSurf_surfCurve]

theorem postFoldSurfs_next (volfs : EH) :
    ∀ (l : List EH) (σ : GeomState),
      (l.foldl (fun a s => postSurf volfs a s) σ).next = σ.next := by
  intro l
  induction l with
  | nil => intro σ; rfl
  | cons s rest ih =>
    intro σ
    rw [List.foldl_cons, ih, postSurf_next]

theorem postPassFold_surfCurve :
    ∀ (vs : List Vol) (σ : GeomState),
      (vs.foldl (fun acc v => v.surfs.foldl (fun a s => postSurf v.fs a s) acc)
        σ).surfCurve = σ.surfCurve := by
  intro vs
  induction vs with
  | nil => intro σ; rfl
  | cons v rest ih =>
    intro σ
    rw [List.foldl_cons, ih, postFoldSurfs_surfCurve]

theorem postPassFold_next :
    ∀ (vs : List Vol) (σ : GeomState),
      (vs.foldl (fun acc v => v.surfs.foldl (fun a s => postSurf v.fs a s) acc)
        σ).next = σ.next := by
  intro vs
  induction vs with
  | nil => intro σ; rfl
  | cons v rest ih =>
    intro σ
    rw [List.foldl_cons, ih, postFoldSurfs_next]

theorem postPass_surfCurve (σ : GeomState) : (postPass σ).surfCurve = σ.surfCurve :=
  postPassFold_surfCurve σ.vols σ

theorem postPass_next (σ : GeomState) : (postPass σ).next = σ.next :=
  postPassFold_next σ.vols σ

theorem postPass_vols (σ : GeomState) : (postPass σ).vols = σ.vols :=
  postPassFold_vols σ.vols σ

theorem wfc_postPass {σ : GeomState} (hw : WfC σ) : WfC (postPass σ) := by
  obtain ⟨w1, w2, w3, w4, w5, w6⟩ := hw
  have hsc := postPass_surfCurve σ
  have hv := postPass_vols σ
  have hn := postPass_next σ
  exact ⟨by rw [hsc]; exact w1, by rw [hsc, hn]; exact w2,
    by rw [hsc, hn]; exact w3, by rw [hsc]; exact w4,
    by rw [hv, hn]; exact w5, by rw [hv, hsc]; exact w6⟩

/-- Starting from a state with an empty `surf_curve` dictionary and all
volume-listed surfaces below the allocation counter, the whole
`__imprint_merge` maintains the curve-registration invariant. -/
theorem imprintMerge_wfc (tol norm : ℤ) (nLevels : Nat) (σ0 : GeomState)
    (h0 : σ0.surfCurve = [])
    (hvs0 : ∀ v ∈ σ0.vols, ∀ s ∈ v.surfs, s < σ0.next) :
    WfC (imprintMerge tol norm nLevels σ0) := by
  have hw0 : WfC σ0 := by
    refine ⟨?_, ?_, ?_, ?_, hvs0, ?_⟩
    · rw [h0]; exact List.nodup_nil
    · intro e he
      rw [h0] at he
      exact absurd he (List.not_mem_nil e)
    · intro x hx
      obtain ⟨e, he, _⟩ := hx
      rw [h0] at he
      exact absurd he (List.not_mem_nil e)
    · intro c
      rw [h0]
      exact Nat.zero_le 3
    · intro v hv s hs hls
      obtain ⟨e, he, _⟩ := hls
      rw [h0] at he
      exact absurd he (List.not_mem_nil e)
  unfold imprintMerge
  exact wfc_postPass (passLoop_wfc tol norm nLevels σ0.vols.length 0 σ0 hw0)

theorem famSurfs_parentChild_filter (volfs : EH) (c : EH) :
    ∀ (l : List EH) (sid : Nat) (f : Family), c ∉ l →
      (famSurfs volfs l sid f).1.parentChild.filter (fun e => decide (e.2 = c))
        = f.parentChild.filter (fun e => decide (e.2 = c)) := by
  intro l
  induction l with
  | nil => intro sid f _; rfl
  | cons s rest ih =>
    intro sid f hc
    simp only [famSurfs]
    rw [ih (sid + 1) _ (fun h => hc (List.mem_cons_of_mem _ h))]
    show (f.parentChild ++ [(volfs, s)]).filter (fun e => decide (e.2 = c))
      = f.parentChild.filter (fun e => decide (e.2 = c))
    rw [List.filter_append]
    have hs : s ≠ c := fun h => hc (by rw [h]; exact List.mem_cons_self _ _)
    simp [hs]

theorem famVols_parentChild_filter (c : EH) :
    ∀ (vs : List Vol) (vid sid : Nat) (f : Family),
      (∀ v ∈ vs, c ∉ v.surfs) →
      (famVols vs vid sid f).parentChild.filter (fun e => decide (e.2 = c))
        = f.parentChild.filter (fun e => decide (e.2 = c)) := by
  intro vs
  induction vs with
  | nil => intro vid sid f _; rfl
  | cons v rest ih =>
    intro vid sid f hc
    simp only [famVols]
    rw [ih (vid + 1) _ _ (fun v2 h => hc v2 (List.mem_cons_of_mem _ h))]
    rw [famSurfs_parentChild_filter v.fs c v.surfs sid (famVolTag v vid f)
      (hc v (List.mem_cons_self _ _))]
    rfl

theorem famCurveList_parentChild_len (skey : EH) (c : EH) :
    ∀ (l : List EH) (cid : Nat) (f : Family),
      ((famCurveList skey l cid f).1.parentChild.filter
        (fun e => decide (e.2 = c))).length
        = (f.parentChild.filter (fun e => decide (e.2 = c))).length
          + l.count c := by
  intro l
  induction l with
  | nil => intro cid f; simp [famCurveList]
  | cons c0 rest ih =>
    intro cid f
    simp only [famCurveList]
    rw [ih (cid + 1)]
    show ((f.parentChild ++ [(skey, c0)]).filter
        (fun e => decide (e.2 = c))).length + rest.count c
      = (f.parentChild.filter (fun e => decide (e.2 = c))).length
        + (c0 :: rest).count c
    have hfil : (List.filter (fun e => decide (e.2 = c)) [(skey, c0)]).length
        = if c0 = c then 1 else 0 := by
      by_cases hcc : c0 = c <;> simp [hcc]
    have hcnt : (c0 :: rest).count c = rest.count c + (if c0 = c then 1 else 0) := by
      by_cases hcc : c0 = c <;> simp [List.count_cons, hcc]
    rw [List.filter_append, List.length_append, hfil, hcnt]
    omega

theorem famCurves_parentChild_len (c : EH) :
    ∀ (sc : List (EH × List EH)) (cid : Nat) (f : Family),
      ((famCurves sc cid f).parentChild.filter
        (fun e => decide (e.2 = c))).length
        = (f.parentChild.filter (fun e => decide (e.2 = c))).length
          + curveCount c sc := by
  intro sc
  induction sc with
  | nil => intro cid f; simp [famCurves, curveCount]
  | cons e rest ih =>
    intro cid f
    simp only [famCurves]
    rw [ih, famCurveList_parentChild_len e.1 c e.2 cid f]
    simp only [curveCount, List.map_cons, List.sum_cons]
    omega

/-- C9 (amended): starting from a state with no registered curves and all
volume-listed surfaces below the allocation counter (as after
`__separate_isovols`), every curve registered in `surf_curve` by
`__imprint_merge` ends with **at most three** distinct parent surfaces in the
`__make_family` hierarchy — `s1`, `s2` and the new shared patch, each
registered once at curve creation (vol.py 635-637, 822-830). -/
theorem C9_curve_parents_le_three (tol norm : ℤ) (nLevels : Nat)
    (σ0 : GeomState) (h0 : σ0.surfCurve = [])
    (hvs0 : ∀ v ∈ σ0.vols, ∀ s ∈ v.surfs, s < σ0.next) (c : EH)
    (hc : ListsMem (imprintMerge tol norm nLevels σ0).surfCurve c) :
    (parentsOf (makeFamily (imprintMerge tol norm nLevels σ0)) c).length ≤ 3 := by
  obtain ⟨w1, w2, w3, w4, w5, w6⟩ := imprintMerge_wfc tol norm nLevels σ0 h0 hvs0
  have hnov : ∀ v ∈ (imprintMerge tol norm nLevels σ0).vols, c ∉ v.surfs :=
    fun v hv hcs => w6 v hv c hcs hc
  have hd : (parentsOf (makeFamily (imprintMerge tol norm nLevels σ0)) c).length
      ≤ ((makeFamily (imprintMerge tol norm nLevels σ0)).parentChild.filter
        (fun e => decide (e.2 = c))).length := by
    unfold parentsOf
    have hsub := (List.dedup_sublist
      (((makeFamily (imprintMerge tol norm nLevels σ0)).parentChild.filter
        (fun e => decide (e.2 = c))).map (fun e => e.1))).length_le
    rw [List.length_map] at hsub
    exact hsub
  have hcount : ((makeFamily (imprintMerge tol norm nLevels σ0)).parentChild.filter
      (fun e => decide (e.2 = c))).length
      = curveCount c (imprintMerge tol norm nLevels σ0).surfCurve := by
    unfold makeFamily
    rw [famCurves_parentChild_len c (imprintMerge tol norm nLevels σ0).surfCurve 0,
        famVols_parentChild_filter c (imprintMerge tol norm nLevels σ0).vols 0 0 _
          hnov]
    simp
  rw [hcount] at hd
  exact Nat.le_trans hd (w4 c)

/-- Witness for the amended C9 on the concrete merge run: the curve 401
exists in the final `surf_curve` registry and has at most three distinct
parents. -/
theorem C9_curve_parents_le_three_witness :
    ListsMem (imprintMerge 1 1 2 mergeScenario).surfCurve 401 ∧
    (parentsOf (makeFamily (imprintMerge 1 1 2 mergeScenario)) 401).length ≤ 3 := by
  constructor
  · exact ⟨(201, [401]), by decide, by decide⟩
  · exact C9_curve_parents_le_three 1 1 2 mergeScenario (by decide) (by decide)
      401 ⟨(201, [401]), by decide, by decide⟩

/-- Every curve visit of the curve loop, in visit order (vol.py 822-830). -/
def curveVisits : List (EH × List EH) → List EH
  | [] => []
  | e :: rest => e.2 ++ curveVisits rest

theorem mem_curveVisits {x : EH} :
    ∀ {sc : List (EH × List EH)}, x ∈ curveVisits sc ↔ ListsMem sc x := by
  intro sc
  induction sc with
  | nil =>
    constructor
    · intro h
      exact absurd h (List.not_mem_nil x)
    · rintro ⟨e, he, _⟩
      exact absurd he (List.not_mem_nil e)
  | cons e rest ih =>
    simp only [curveVisits]
    constructor
    · intro h
      rcases List.mem_append.mp h with h | h
      · exact ⟨e, List.mem_cons_self _ _, h⟩
      · obtain ⟨e2, he2, hx⟩ := ih.mp h
        exact ⟨e2, List.mem_cons_of_mem _ he2, hx⟩
    · rintro ⟨e2, he2, hx⟩
      rcases List.mem_cons.mp he2 with rfl | he2
      · exact List.mem_append.mpr (Or.inl hx)
      · exact List.mem_append.mpr (Or.inr (ih.mpr ⟨e2, he2, hx⟩))

/-- A visited key has a binding under sequential assignment. -/
theorem seqAssign_lookup_isSome :
    ∀ (l : List EH) (n : Nat) (k : EH), k ∈ l →
      (List.lookup k (seqAssign l n)).isSome := by
  intro l
  induction l with
  | nil => intro n k h; exact absurd h (List.not_mem_nil k)
  | cons s0 rest ih =>
    intro n k h
    simp only [seqAssign]
    by_cases hr : k ∈ rest
    · cases hq : List.lookup k (seqAssign rest (n + 1)) with
      | none =>
        have hs := ih (n + 1) k hr
        rw [hq] at hs
        exact Bool.noConfusion hs
      | some b =>
        rw [lookup_append_some _ hq]
        rfl
    · rcases List.mem_cons.mp h with rfl | hmem
      · rw [lookup_append_none _ (seqAssign_lookup_none rest (n + 1) k hr)]
        simp [List.lookup]
      · exact absurd hmem hr

/-- The curve loop of one `surf_curve` entry is exactly the sequential
`GLOBAL_ID` assignment over its list, prepended; the counter advances by the
list length. -/
theorem famCurveList_spec (skey : EH) :
    ∀ (l : List EH) (cid : Nat) (f : Family),
      (famCurveList skey l cid f).1.globalId = seqAssign l cid ++ f.globalId ∧
      (famCurveList skey l cid f).2 = cid + l.length := by
  intro l
  induction l with
  | nil => intro cid f; exact ⟨rfl, rfl⟩
  | cons c rest ih =>
    intro cid f
    simp only [famCurveList, seqAssign]
    obtain ⟨h1, h2⟩ := ih (cid + 1)
      { f with
          parentChild := f.parentChild ++ [(skey, c)]
          geomDim := (c, 1) :: f.geomDim
          category := (c, catCurve) :: f.category
          globalId := (c, cid + 1) :: f.globalId }
    refine ⟨?_, ?_⟩
    · rw [h1, List.append_assoc]
      rfl
    · rw [h2]
      simp only [List.length_cons]
      omega

/-- The whole curve loop prepends the sequential assignment over all curve
visits onto the `GLOBAL_ID` table. -/
theorem famCurves_spec :
    ∀ (sc : List (EH × List EH)) (cid : Nat) (f : Family),
      (famCurves sc cid f).globalId
        = seqAssign (curveVisits sc) cid ++ f.globalId := by
  intro sc
  induction sc with
  | nil => intro cid f; rfl
  | cons e rest ih =>
    intro cid f
    simp only [famCurves, curveVisits]
    rw [ih]
    obtain ⟨hg, hc⟩ := famCurveList_spec e.1 e.2 cid f
    rw [hg, hc, seqAssign_append, List.append_assoc]

/-- C5 (amended): id assignment by `__make_family`.  Volume `GLOBAL_ID`s are
exactly the contiguous range 1..N in list order.  Surface and curve ids are
assigned per list visit with overwrite, so distinct listed surfaces end with
pairwise distinct ids, and distinct registered curves end with pairwise
distinct ids — but (as the counterexample shows) the surviving ids need not
be contiguous and need not include 1.  Hypotheses: volume file-set handles
are pairwise distinct, surface handles never collide with a volume file-set
handle, and curve handles collide with neither. -/
theorem C5_ids_vols_dense_surfs_distinct (σ : GeomState)
    (hfsND : (σ.vols.map (fun v => v.fs)).Nodup)
    (hsurfNotFs : ∀ v ∈ σ.vols, ∀ s ∈ v.surfs, s ∉ σ.vols.map (fun v2 => v2.fs))
    (hnoCurve : ∀ e ∈ σ.surfCurve, ∀ c ∈ e.2,
        ∀ v ∈ σ.vols, c ≠ v.fs ∧ c ∉ v.surfs) :
    (∀ k, k < σ.vols.length →
        List.lookup (volAt σ k).fs (makeFamily σ).globalId = some (k + 1)) ∧
    (∀ s1 s2 m1 m2, s1 ≠ s2 →
        (∃ v ∈ σ.vols, s1 ∈ v.surfs) → (∃ v ∈ σ.vols, s2 ∈ v.surfs) →
        List.lookup s1 (makeFamily σ).globalId = some m1 →
        List.lookup s2 (makeFamily σ).globalId = some m2 →
        m1 ≠ m2) ∧
    (∀ c1 c2 m1 m2, c1 ≠ c2 →
        ListsMem σ.surfCurve c1 → ListsMem σ.surfCurve c2 →
        List.lookup c1 (makeFamily σ).globalId = some m1 →
        List.lookup c2 (makeFamily σ).globalId = some m2 →
        m1 ≠ m2) := by
  refine ⟨?_, ?_, ?_⟩
  · intro k hk
    have hmem : volAt σ k ∈ σ.vols := by
      show σ.vols.getD k _ ∈ σ.vols
      rw [List.getD_eq_getElem _ _ hk]
      exact List.getElem_mem hk
    have hskip : ∀ e ∈ σ.surfCurve, (volAt σ k).fs ∉ e.2 := by
      intro e he hc
      exact (hnoCurve e he _ hc (volAt σ k) hmem).1 rfl
    have h0 := famVols_lookup_volkey σ.vols 0 0 ⟨[], [], [], []⟩ k hk hfsND hsurfNotFs
    unfold makeFamily
    rw [famCurves_lookup_skip σ.surfCurve 0 _ (volAt σ k).fs hskip]
    simpa [volAt, volDefault] using h0
  · intro s1 s2 m1 m2 hne h1 h2 hl1 hl2
    obtain ⟨v1, hv1, hs1⟩ := h1
    obtain ⟨v2, hv2, hs2⟩ := h2
    have hnf1 : s1 ∉ σ.vols.map (fun v => v.fs) := hsurfNotFs v1 hv1 s1 hs1
    have hnf2 : s2 ∉ σ.vols.map (fun v => v.fs) := hsurfNotFs v2 hv2 s2 hs2
    have hskip1 : ∀ e ∈ σ.surfCurve, s1 ∉ e.2 := by
      intro e he hc
      exact (hnoCurve e he _ hc v1 hv1).2 hs1
    have hskip2 : ∀ e ∈ σ.surfCurve, s2 ∉ e.2 := by
      intro e he hc
      exact (hnoCurve e he _ hc v2 hv2).2 hs2
    unfold makeFamily at hl1 hl2
    rw [famCurves_lookup_skip σ.surfCurve 0 _ s1 hskip1] at hl1
    rw [famCurves_lookup_skip σ.surfCurve 0 _ s2 hskip2] at hl2
    have key1 : List.lookup s1 (seqAssign (surfVisits σ.vols) 0) = some m1 := by
      cases hq : List.lookup s1 (seqAssign (surfVisits σ.vols) 0) with
      | none =>
        rw [famVols_lookup_missed σ.vols 0 0 ⟨[], [], [], []⟩ s1 hnf1 hq] at hl1
        exact Option.noConfusion hl1
      | some m =>
        rw [famVols_lookup_found σ.vols 0 0 ⟨[], [], [], []⟩ s1 m hnf1 hq] at hl1
        exact hl1
    have key2 : List.lookup s2 (seqAssign (surfVisits σ.vols) 0) = some m2 := by
      cases hq : List.lookup s2 (seqAssign (surfVisits σ.vols) 0) with
      | none =>
        rw [famVols_lookup_missed σ.vols 0 0 ⟨[], [], [], []⟩ s2 hnf2 hq] at hl2
        exact Option.noConfusion hl2
      | some m =>
        rw [famVols_lookup_found σ.vols 0 0 ⟨[], [], [], []⟩ s2 m hnf2 hq] at hl2
        exact hl2
    exact seqAssign_lookup_inj (surfVisits σ.vols) 0 s1 s2 m1 m2 hne key1 key2
  · intro c1 c2 m1 m2 hne h1 h2 hl1 hl2
    unfold makeFamily at hl1 hl2
    rw [famCurves_spec] at hl1 hl2
    have hv1 : c1 ∈ curveVisits σ.surfCurve := mem_curveVisits.mpr h1
    have hv2 : c2 ∈ curveVisits σ.surfCurve := mem_curveVisits.mpr h2
    have key1 : List.lookup c1 (seqAssign (curveVisits σ.surfCurve) 0) = some m1 := by
      cases hq : List.lookup c1 (seqAssign (curveVisits σ.surfCurve) 0) with
      | none =>
        have hs := seqAssign_lookup_isSome (curveVisits σ.surfCurve) 0 c1 hv1
        rw [hq] at hs
        exact Bool.noConfusion hs
      | some m =>
        rw [lookup_append_some _ hq] at hl1
        exact hl1
    have key2 : List.lookup c2 (seqAssign (curveVisits σ.surfCurve) 0) = some m2 := by
      cases hq : List.lookup c2 (seqAssign (curveVisits σ.surfCurve) 0) with
      | none =>
        have hs := seqAssign_lookup_isSome (curveVisits σ.surfCurve) 0 c2 hv2
        rw [hq] at hs
        exact Bool.noConfusion hs
      | some m =>
        rw [lookup_append_some _ hq] at hl2
        exact hl2
    exact seqAssign_lookup_inj (curveVisits σ.surfCurve) 0 c1 c2 m1 m2 hne key1 key2

/-- Witness for the amended C5 on the concrete merge run: volume 0's file
set gets `GLOBAL_ID` 1, and the two distinct listed surfaces 400 and 203 get
distinct ids. -/
theorem C5_ids_vols_dense_surfs_distinct_witness :
    List.lookup (volAt (imprintMerge 1 1 2 mergeScenario) 0).fs
      (makeFamily (imprintMerge 1 1 2 mergeScenario)).globalId = some 1 ∧
    (2 : Nat) ≠ 3 := by
  constructor
  · exact (C5_ids_vols_dense_surfs_distinct (imprintMerge 1 1 2 mergeScenario)
      (by decide) (by decide) (by decide)).1 0 (by decide)
  · exact (C5_ids_vols_dense_surfs_distinct (imprintMerge 1 1 2 mergeScenario)
      (by decide) (by decide) (by decide)).2.1 400 203 2 3 (by decide)
      ⟨volAt (imprintMerge 1 1 2 mergeScenario) 0, by decide, by decide⟩
      ⟨volAt (imprintMerge 1 1 2 mergeScenario) 2, by decide, by decide⟩
      (by decide) (by decide)

end IsoGeom
